import Mathlib

/-!
Verification of the installer payload builder (`constructor/briefcase.py`).

The Python source is shallowly embedded: the `info` metadata dictionary becomes an
association list of dynamic values, strings are handled as `List Char` (so that all
definitions are structurally recursive and evaluate inside the kernel), the regular
expressions of the source are compiled by hand into deterministic scanners for the
concrete patterns appearing in the code, and the filesystem effects of the payload
layout and archive functions act on an explicit directory-tree datatype.
-/

namespace Briefcase

/-- Python-style dynamic values as stored in the `info` metadata dictionary. -/
inductive PyVal where
  | str (s : String)
  | bool (b : Bool)
  | int (n : Int)
  | list (xs : List PyVal)
  | none

/-- Python truthiness of a value. -/
def PyVal.truthy : PyVal → Bool
  | .str s => !(s == "")
  | .bool b => b
  | .int n => !(n == 0)
  | .list xs => !xs.isEmpty
  | .none => false

/-- Python `str()` rendering, used by the f-strings of the source. Only the `str`
case is exercised by the claims; the rendering of the remaining cases is an
approximation of CPython's output and nothing proved below depends on it. -/
def PyVal.toStr : PyVal → String
  | .str s => s
  | .bool b => if b then "True" else "False"
  | .int n => toString n
  | .list _ => "[.]"
  | .none => "None"

/-- An `info` dictionary: an association list of keys to values. -/
abbrev Info := List (String × PyVal)

/-- Python `dict` lookup, `info.get(k)` (first entry with the given key). -/
def dictGet (info : Info) (k : String) : Option PyVal :=
  (info.find? (fun p => p.1 == k)).map (fun p => p.2)

/-- The error kinds raised by the modelled code. `validationError` stands for the
`ValueError`s of the source (the spec's `ValidationError`). -/
inductive PyErr where
  | validationError (msg : String)
  | keyError (k : String)
  | attributeError
  | typeError

/-! ## `make_app_name` -/

/-- Characters matched by the class `[a-z0-9]` of the substitution pattern in
`make_app_name` (its input is lowercased first). -/
def isLowerAlnum (c : Char) : Bool := ('a' ≤ c && c ≤ 'z') || ('0' ≤ c && c ≤ '9')

/-- The substitution `re.sub("[^a-z0-9]+", "-", s)`: replace each maximal run of
characters outside the class with a single hyphen. The flag records whether the
previous character belonged to such a run. -/
def collapseRuns : Bool → List Char → List Char
  | _, [] => []
  | inRun, c :: r =>
    if isLowerAlnum c then c :: collapseRuns false r
    else if inRun then collapseRuns true r
    else '-' :: collapseRuns true r

/-- Python `str.strip(chars)`: drop characters of the given set from both ends. -/
def stripChars (cut : List Char) (l : List Char) : List Char :=
  ((l.dropWhile (fun c => cut.contains c)).reverse.dropWhile (fun c => cut.contains c)).reverse

/-- The collapsed and stripped character list computed inside `make_app_name`:
`re.sub(r"[^a-z0-9]+", "-", name.lower()).strip("-")`. -/
def appNameRaw (name : String) : List Char :=
  stripChars ['-'] (collapseRuns false (name.data.map Char.toLower))

/-- Model of `make_app_name(name, source)` from `briefcase.py`: lowercase, replace
non-alphanumeric runs by hyphens, strip hyphens from the ends, and fail when the
result is empty. -/
def make_app_name (name source : String) : Except PyErr String :=
  if (appNameRaw name).isEmpty then
    .error (.validationError (source ++ " contains no alphanumeric characters"))
  else .ok (String.mk (appNameRaw name))

/-! ## `get_bundle_app_name` -/

/-- ASCII letters and digits: the class `[A-Z0-9]` under `re.IGNORECASE`. -/
def isAlnumAscii (c : Char) : Bool :=
  ('A' ≤ c && c ≤ 'Z') || ('a' ≤ c && c ≤ 'z') || ('0' ≤ c && c ≤ '9')

/-- Characters of the middle class `[A-Z0-9._-]` (case-insensitive). -/
def isSegMid (c : Char) : Bool := isAlnumAscii c || c == '.' || c == '_' || c == '-'

/-- Decides `re.fullmatch("[A-Z0-9]|[A-Z0-9][A-Z0-9._-]*[A-Z0-9]", s, re.IGNORECASE)`:
non-empty, alphanumeric at both ends, all interior characters in the middle class. -/
def isValidAppNameSegment (s : String) : Bool :=
  match s.data with
  | [] => false
  | c :: rest =>
    match rest.getLast? with
    | Option.none => isAlnumAscii c
    | some d => isAlnumAscii c && isAlnumAscii d && rest.dropLast.all isSegMid

/-- Split a character list at its last dot, returning the parts before and after it,
or `none` when no dot occurs. This combines the `"." not in rdi` check of the
source with `rdi.rsplit(".", 1)`. -/
def rsplitDot : List Char → Option (List Char × List Char)
  | [] => Option.none
  | c :: r =>
    match rsplitDot r with
    | some (b, a) => some (c :: b, a)
    | Option.none => if c == '.' then some ([], r) else Option.none

/-- Model of `get_bundle_app_name(info, name)`. The `reverse_domain_identifier`
field of `info` is passed as `rdi`; the constant `DEFAULT_REVERSE_DOMAIN_ID` is
imported from `utils.py`, which is outside this repository slice, so its value is
a parameter `defaultRdi`. -/
def get_bundle_app_name (defaultRdi : String) (rdi : Option String) (name : String) :
    Except PyErr (String × String) :=
  match rdi with
  | some r =>
    match rsplitDot r.data with
    | Option.none =>
      .error (.validationError ("reverse_domain_identifier '" ++ r ++ "' contains no dots"))
    | some (b, a) =>
      let bundle := String.mk b
      let app := String.mk a
      if isValidAppNameSegment app then .ok (bundle, app)
      else
        match make_app_name app ("Last component of reverse_domain_identifier '" ++ r ++ "'") with
        | .ok app2 => .ok (bundle, app2)
        | .error e => .error e
  | Option.none =>
    match make_app_name name ("Name '" ++ name ++ "'") with
    | .ok app => .ok (defaultRdi, app)
    | .error e => .error e

/-- Decides the spec's notion of a valid package-name token: one or more lowercase
alphanumeric segments joined by single hyphens. The flag is true when a new
segment is required to start. -/
def tokenScan : Bool → List Char → Bool
  | needSeg, [] => !needSeg
  | true, c :: r => isLowerAlnum c && tokenScan false r
  | false, c :: r => if c == '-' then tokenScan true r else isLowerAlnum c && tokenScan false r

/-- A valid package-name token per the spec's `BundleIdentity` invariant. -/
def isLowerToken (s : String) : Bool := tokenScan true s.data

/-! ## `create_install_options_list` -/

/-- One entry of the installation-options page: the dict literal appended by
`create_install_options_list`. The `title` is always built from string literals;
`description` and `defaultVal` hold the raw Python values stored by the source. -/
structure IOpt where
  name : String
  title : String
  description : PyVal
  defaultVal : PyVal

/-- Python `str.split(sep)` for a single-character separator (keeps empty parts). -/
def splitOnChar (sep : Char) : List Char → List (List Char)
  | [] => [[]]
  | c :: r =>
    if c == sep then [] :: splitOnChar sep r
    else
      match splitOnChar sep r with
      | [] => [[c]]
      | g :: gs => (c :: g) :: gs

/-- Python `str.join` over a list of character lists. -/
def joinWith (sep : List Char) : List (List Char) → List Char
  | [] => []
  | [x] => x
  | x :: xs => x ++ sep ++ joinWith sep xs

/-- `pathlib.PurePath.name`: the final component of the path string (split on both
separators accepted on Windows). -/
def pathName (s : List Char) : List Char :=
  ((splitOnChar '/' s).flatMap (splitOnChar '\\')).getLastD []

/-- `pathlib.PurePath.suffix` of a final component: the extension starting at the
last dot, empty when the dot is absent, leading, or trailing. -/
def pathSuffix (nm : List Char) : List Char :=
  let revTaken := nm.reverse.takeWhile (fun c => !(c == '.'))
  if revTaken.length == nm.length then []
  else if revTaken.length == 0 then []
  else if nm.length - revTaken.length - 1 == 0 then []
  else '.' :: revTaken.reverse

/-- Model of `is_bat_file(file_path)`. The filesystem's `Path.is_file` test is an
oracle `fs` on the path string. -/
def is_bat_file (fs : String → Bool) (s : String) : Bool :=
  fs s && ((pathSuffix (pathName s.data)).map Char.toLower == ".bat".data)

/-- The python-version string computed for a `python-x.y.z-...` entry:
`".".join(item.split("-")[1].split(".")[:-1])`. The index `1` always exists since
the item starts with `"python-"`; the `getD` default is never reached then. -/
def pyVersionOf (s : String) : String :=
  let components := splitOnChar '-' s.data
  String.mk (joinWith ['.'] (splitOnChar '.' (components.getD 1 [])).dropLast)

/-- The loop of `create_install_options_list` over `info.get("_dists", [])`:
return the version string of the first entry starting with `"python-"`, raising
`AttributeError` (as `item.startswith` would) on a non-string entry reached
before that. -/
def scanPython : List PyVal → Except PyErr (Option String)
  | [] => .ok Option.none
  | .str s :: rest =>
    if "python-".data.isPrefixOf s.data then .ok (some (pyVersionOf s))
    else scanPython rest
  | _ :: _ => .error .attributeError

/-- Iterating the value of `info.get("_dists", [])`: lists yield their items, a
string yields its characters (Python strings are iterable), anything else raises
`TypeError`. -/
def distsItems : PyVal → Except PyErr (List PyVal)
  | .list xs => .ok xs
  | .str s => .ok (s.data.map (fun c => .str (String.mk [c])))
  | _ => .error .typeError

/-- The python-bundled scan of `create_install_options_list`, combining the
`_dists` default, the iteration, and the loop. -/
def pythonDistScan (info : Info) : Except PyErr (Option String) :=
  match distsItems ((dictGet info "_dists").getD (.list [])) with
  | .error e => .error e
  | .ok items => scanPython items

/-- The "Register Python" block of `create_install_options_list`. Reading
`info["name"]` raises `KeyError` when absent. -/
def registerOpts (info : Info) : Except PyErr (List IOpt) :=
  match pythonDistScan info with
  | .error e => .error e
  | .ok Option.none => .ok []
  | .ok (some pyver) =>
    if ((dictGet info "register_python").getD (.bool true)).truthy then
      match dictGet info "name" with
      | Option.none => .error (.keyError "name")
      | some nm =>
        .ok [{ name := "register_python",
               title := "Register " ++ nm.toStr ++ " as my default Python " ++ pyver ++ ".",
               description := .str ("Allows other programs, such as VSCode, PyCharm, etc. to automatically detect "
                 ++ nm.toStr ++ " as the primary Python " ++ pyver ++ " on the system."),
               defaultVal := (dictGet info "register_python_default").getD (.bool false) }]
    else .ok []

/-- The "Initialize conda" block of `create_install_options_list`. -/
def condaOpts (info : Info) : List IOpt :=
  let ic := (dictGet info "initialize_conda").getD (.str "classic")
  if ic.truthy then
    [{ name := "initialize_conda",
       title := "Add installation to my PATH environment variable",
       description := .str (match ic with
         | .str s =>
           if s == "condabin" then
             "Adds condabin, which only contains the 'conda' executables, to PATH. Does not require special shortcuts but activation needs to be performed manually."
           else
             "NOT recommended. This can lead to conflicts with other applications. Instead, use the Command Prompt and Powershell menus added to the Windows Start Menu."
         | _ =>
           "NOT recommended. This can lead to conflicts with other applications. Instead, use the Command Prompt and Powershell menus added to the Windows Start Menu."),
       defaultVal := (dictGet info "initialize_by_default").getD (.bool false) }]
  else []

/-- The always-present cache-clearing option of `create_install_options_list`. -/
def cacheOpt (info : Info) : IOpt :=
  { name := "clear_package_cache",
    title := "Clear the package cache upon completion",
    description := .str "Recommended. Recovers some disk space without harming functionality.",
    defaultVal := .bool (!((dictGet info "keep_pkgs").getD (.bool false)).truthy) }

/-- The shortcuts option: appended only when `info.get("_enable_shortcuts", False)`
is the identical boolean `True` (the source tests with `is True`). -/
def shortcutOpts (info : Info) : List IOpt :=
  match (dictGet info "_enable_shortcuts").getD (.bool false) with
  | .bool true =>
    [{ name := "enable_shortcuts",
       title := "Create shortcuts",
       description := .str "Create shortcuts (supported packages only).",
       defaultVal := .bool false }]
  | _ => []

/-- Python `str.capitalize`: first character uppercased, the rest lowercased. -/
def capitalize (s : String) : String :=
  match s.data with
  | [] => ""
  | c :: r => String.mk (c.toUpper :: r.map Char.toLower)

/-- The checks for a truthy string script value: the path must satisfy
`is_bat_file`, and the UI option is appended only when the description is
truthy. -/
def scriptStrCheck (fs : String → Bool) (t : String) (s : String) (desc : PyVal) :
    Except PyErr (List IOpt) :=
  if !is_bat_file fs s then
    .error (.validationError
      ("Specified " ++ t ++ "-install script '" ++ s ++ "' must be an existing '.bat' file."))
  else if desc.truthy then
    .ok [{ name := t ++ "_install_script", title := capitalize t ++ "-install script",
           description := desc, defaultVal := .bool false }]
  else .ok []

/-- The `Path(script)` handling of a truthy script value: a non-string raises
`TypeError` (as `Path(...)` would); a string goes through `scriptStrCheck`. -/
def scriptBatCheck (fs : String → Bool) (t : String) (script desc : PyVal) :
    Except PyErr (List IOpt) :=
  match script with
  | .str s => scriptStrCheck fs t s desc
  | _ => .error .typeError

/-- One iteration of the pre/post-install script loop of
`create_install_options_list`, for the script type `t` (`"pre"` or `"post"`). -/
def scriptOpts (fs : String → Bool) (info : Info) (t : String) : Except PyErr (List IOpt) :=
  let desc := (dictGet info (t ++ "_install_desc")).getD (.str "")
  let script := (dictGet info (t ++ "_install")).getD (.str "")
  if desc.truthy && !script.truthy then
    .error (.validationError (t ++ "_install_desc was set, but " ++ t ++ "_install was not!"))
  else if script.truthy then
    scriptBatCheck fs t script desc
  else if desc.truthy then
    .ok [{ name := t ++ "_install_script", title := capitalize t ++ "-install script",
           description := desc, defaultVal := .bool false }]
  else .ok []

/-- Model of `create_install_options_list(info)`: the conditional appends of the
source in their fixed order. The `Path.is_file` test is the oracle `fs`. -/
def create_install_options_list (fs : String → Bool) (info : Info) :
    Except PyErr (List IOpt) :=
  match registerOpts info with
  | .error e => .error e
  | .ok a =>
    let b := condaOpts info
    let c := [cacheOpt info]
    let d := shortcutOpts info
    match scriptOpts fs info "pre" with
    | .error e => .error e
    | .ok e =>
      match scriptOpts fs info "post" with
      | .error e2 => .error e2
      | .ok f => .ok (a ++ b ++ c ++ d ++ e ++ f)

/-! ## `get_name_version`

The regex `(\d+!)?\d+(\.\d+)*((a|b|rc)\d+)?(\.post\d+)?(\.dev\d+)?` of the source is
compiled by hand into a deterministic scanner. All quantifiers of the pattern are
greedy and every component boundary is letter/digit/dot disambiguated, so the only
backtracking the Python engine ever performs on it is giving the optional epoch
group back when no digits follow it; the scanner reproduces exactly that. `\d` is
modelled as the ASCII digits. -/

/-- Split a leading run of digits: its length and the rest of the input. -/
def takeDigits : List Char → Nat × List Char
  | [] => (0, [])
  | c :: r =>
    if c.isDigit then
      let (n, rest) := takeDigits r
      (n + 1, rest)
    else (0, c :: r)

/-- The optional epoch group `(\d+!)?`: length consumed and the rest. -/
def epochSplit (l : List Char) : Nat × List Char :=
  let (d, rest) := takeDigits l
  match rest with
  | '!' :: r2 => if d > 0 then (d + 1, r2) else (0, l)
  | _ => (0, l)

/-- The greedy repetition `(\.\d+)*`: length consumed and the rest. The fuel is the
length of the input, enough since each iteration consumes at least two characters. -/
def dotRunsSplit : Nat → List Char → Nat × List Char
  | 0, l => (0, l)
  | _, [] => (0, [])
  | fuel + 1, c :: r =>
    if c == '.' then
      let (d, rest) := takeDigits r
      if d > 0 then
        let (m, rest2) := dotRunsSplit fuel rest
        (1 + d + m, rest2)
      else (0, c :: r)
    else (0, c :: r)

/-- The optional pre-release group `((a|b|rc)\d+)?`. -/
def preSplit : List Char → Nat × List Char
  | 'a' :: r =>
    let (d, rest) := takeDigits r
    if d > 0 then (1 + d, rest) else (0, 'a' :: r)
  | 'b' :: r =>
    let (d, rest) := takeDigits r
    if d > 0 then (1 + d, rest) else (0, 'b' :: r)
  | 'r' :: 'c' :: r =>
    let (d, rest) := takeDigits r
    if d > 0 then (2 + d, rest) else (0, 'r' :: 'c' :: r)
  | l => (0, l)

/-- The optional group `(\.post\d+)?`. -/
def postSplit : List Char → Nat × List Char
  | '.' :: 'p' :: 'o' :: 's' :: 't' :: r =>
    let (d, rest) := takeDigits r
    if d > 0 then (5 + d, rest) else (0, '.' :: 'p' :: 'o' :: 's' :: 't' :: r)
  | l => (0, l)

/-- The optional group `(\.dev\d+)?`. -/
def devSplit : List Char → Nat × List Char
  | '.' :: 'd' :: 'e' :: 'v' :: r =>
    let (d, rest) := takeDigits r
    if d > 0 then (4 + d, rest) else (0, '.' :: 'd' :: 'e' :: 'v' :: r)
  | l => (0, l)

/-- Length of the regex match anchored at the start of `l`, or `none` when the
pattern does not match there. -/
def matchLen (l : List Char) : Option Nat :=
  let (e0, l1) := epochSplit l
  let (d1, l2) := takeDigits l1
  let (e, d, rest) :=
    if d1 = 0 then
      let (d2, r2) := takeDigits l
      (0, d2, r2)
    else (e0, d1, l2)
  if d = 0 then Option.none
  else
    let (m, r3) := dotRunsSplit rest.length rest
    let (p, r4) := preSplit r3
    let (q, r5) := postSplit r4
    let (v, _) := devSplit r5
    some (e + d + m + p + q + v)

/-- `re.finditer`: scan left to right, emitting each leftmost non-overlapping match
as a `(start, length)` pair and resuming after it. Every match of this pattern is
non-empty, so fuel equal to the input length suffices. -/
def findAllAux : Nat → List Char → Nat → List (Nat × Nat)
  | 0, _, _ => []
  | _, [], _ => []
  | fuel + 1, c :: rest, pos =>
    match matchLen (c :: rest) with
    | some n => (pos, n) :: findAllAux fuel ((c :: rest).drop n) (pos + n)
    | Option.none => findAllAux fuel rest (pos + 1)

/-- All matches of the canonical version pattern in `l`, as `(start, length)` pairs. -/
def findAll (l : List Char) : List (Nat × Nat) := findAllAux l.length l 0

/-- The characters `" .-_"` stripped around the version match. -/
def versionStrip : List Char := [' ', '.', '-', '_']

/-- Python `" ".join(s for s in parts if s)`. -/
def joinSpace : List String → String
  | [] => ""
  | [x] => x
  | x :: xs => x ++ " " ++ joinSpace xs

/-- The lowercased, hyphen-to-dot version text the source runs the regex over. -/
def canonVersionChars (version : String) : List Char :=
  version.data.map (fun c => let c2 := c.toLower; if c2 == '-' then '.' else c2)

/-- The text of the original version string before the match, stripped of
`" .-_"` (the source slices `info["version"]`, preserving the original casing). -/
def beforeText (version : String) (start : Nat) : String :=
  String.mk (stripChars versionStrip (version.data.take start))

/-- The text of the original version string after the match, stripped of `" .-_"`. -/
def afterText (version : String) (start len : Nat) : String :=
  String.mk (stripChars versionStrip (version.data.drop (start + len)))

/-- The regex-driven core of `get_name_version`, after the emptiness checks: take
the last match of the canonical pattern, or fall back to `DEFAULT_VERSION` with a
warning when there is none. -/
def getNameVersionCore (name version : String) : Except PyErr (String × String) :=
  match (findAll (canonVersionChars version)).getLast? with
  | Option.none =>
    -- no valid version number: warn and fall back to DEFAULT_VERSION = "0.0.1"
    .ok (name ++ " " ++ version, "0.0.1")
  | some sl =>
    .ok (joinSpace (([name, beforeText version sl.1, afterText version sl.1 sl.2]).filter
          (fun s => !(s == ""))),
        String.mk (((canonVersionChars version).drop sl.1).take sl.2))

/-- Model of `get_name_version(info)`. The function reads only the `name` and
`version` fields of `info`; they are passed as the optional string fields of the
mapping (absent or empty both fail the source's falsiness checks). -/
def get_name_version (name? version? : Option String) : Except PyErr (String × String) :=
  match name? with
  | Option.none => .error (.validationError "Name is empty")
  | some name =>
    if name == "" then .error (.validationError "Name is empty")
    else
      match version? with
      | Option.none => .error (.validationError "Version is empty")
      | some version =>
        if version == "" then .error (.validationError "Version is empty")
        else getNameVersionCore name version

/-! ## Filesystem model for `Payload`

`make_tar_gz`, `_convert_into_archive` and `_create_layout` act on the filesystem.
It is modelled as a rooted tree of named entries; paths are component lists
relative to the root. A gzip-compressed tar archive with a single top-level entry
is modelled as a `targz` leaf carrying the entry name and the archived tree:
`tarfile.add(src, arcname=src.name)` stores exactly `src`'s name and tree, and the
self-referential corner (the archive lying inside `src`) is skipped by `tarfile`
itself, matching the snapshot taken here before the write. -/

/-- A filesystem tree: plain files, gzip-tar archives, and directories. -/
inductive FsTree where
  | file (data : List Nat)
  | targz (entryName : String) (contents : FsTree)
  | dir (children : List (String × FsTree))

/-- A path relative to the modelled root, as a list of components. -/
abbrev FPath := List String

/-- Errors raised by the filesystem-touching code. `fileExists` is the spec's
`AlreadyExistsError`, `runtimeError` its `BuildError`. -/
inductive OsError where
  | notADirectory (p : FPath)
  | isADirectory (p : FPath)
  | fileNotFound (p : FPath)
  | fileExists
  | runtimeError

/-- First child with the given name. -/
def getChild : List (String × FsTree) → String → Option FsTree
  | [], _ => Option.none
  | e :: r, n => if e.1 == n then some e.2 else getChild r n

/-- Replace the first child with the given name, appending when absent. -/
def setChild : List (String × FsTree) → String → FsTree → List (String × FsTree)
  | [], n, v => [(n, v)]
  | e :: r, n, v => if e.1 == n then (n, v) :: r else e :: setChild r n v

/-- Remove every child with the given name. -/
def removeChild : List (String × FsTree) → String → List (String × FsTree)
  | [], _ => []
  | e :: r, n => if e.1 == n then removeChild r n else e :: removeChild r n

/-- Resolve a path to the entry it denotes. -/
def lookupTree : FsTree → FPath → Option FsTree
  | t, [] => some t
  | .dir cs, n :: p =>
    match getChild cs n with
    | some c => lookupTree c p
    | Option.none => Option.none
  | _, _ :: _ => Option.none

/-- `Path.is_dir`: the path resolves to a directory. -/
def isDirAt (t : FsTree) (p : FPath) : Bool :=
  match lookupTree t p with
  | some (.dir _) => true
  | _ => false

/-- Create or truncate the file `n` inside the directory at `d` with value `v`,
as `open(..., "wb")` would: fails (`None`) when `d` is not a directory or when an
existing directory sits at the target name. -/
def writeFileAt : FsTree → FPath → String → FsTree → Option FsTree
  | .dir cs, [], n, v =>
    match getChild cs n with
    | some (.dir _) => Option.none
    | _ => some (.dir (setChild cs n v))
  | .dir cs, m :: p, n, v =>
    match getChild cs m with
    | some c =>
      match writeFileAt c p n v with
      | some c2 => some (.dir (setChild cs m c2))
      | Option.none => Option.none
    | Option.none => Option.none
  | _, _, _, _ => Option.none

/-- `shutil.rmtree`: remove the directory entry at the path (which must exist and
be a directory reachable through directories). -/
def removeDirAt : FsTree → FPath → Option FsTree
  | .dir cs, [n] =>
    match getChild cs n with
    | some (.dir _) => some (.dir (removeChild cs n))
    | _ => Option.none
  | .dir cs, m :: p :: q =>
    match getChild cs m with
    | some c =>
      match removeDirAt c (p :: q) with
      | some c2 => some (.dir (setChild cs m c2))
      | Option.none => Option.none
    | Option.none => Option.none
  | _, _ => Option.none

/-- Model of `Payload.make_tar_gz(src, dst)` with archive name `an`: check both
inputs are directories, then write the archive of `src`'s tree at `dst/an` with
top-level entry `src.name`, returning the new tree and the archive path. -/
def make_tar_gz (t : FsTree) (src dst : FPath) (an : String) :
    Except OsError (FsTree × FPath) :=
  match lookupTree t src with
  | some (.dir srcCs) =>
    match lookupTree t dst with
    | some (.dir _) =>
      match writeFileAt t dst an (.targz (src.getLastD "") (.dir srcCs)) with
      | some t2 => .ok (t2, dst ++ [an])
      | Option.none => .error (.isADirectory (dst ++ [an]))
    | _ => .error (.notADirectory dst)
  | _ => .error (.notADirectory src)

/-- Model of `Payload._convert_into_archive(src, dst)`: build the archive, check
it exists (raising `RuntimeError` otherwise), then `shutil.rmtree(src)`. -/
def convert_into_archive (t : FsTree) (src dst : FPath) (an : String) :
    Except OsError (FsTree × FPath) :=
  match make_tar_gz t src dst an with
  | .error e => .error e
  | .ok (t1, apath) =>
    if (lookupTree t1 apath).isNone then .error .runtimeError
    else
      match removeDirAt t1 src with
      | some t2 => .ok (t2, apath)
      | Option.none => .error (.fileNotFound src)

/-- Extracting a gzip-tar archive value: its single top-level entry name and tree. -/
def extractTarGz : FsTree → Option (String × FsTree)
  | .targz n c => some (n, c)
  | _ => Option.none

/-- `p` is a path prefix of `q` (equal or an ancestor of it). -/
def pathLe (p q : FPath) : Prop := q.take p.length = p

instance (p q : FPath) : Decidable (pathLe p q) :=
  inferInstanceAs (Decidable (q.take p.length = p))

/-- `Path.mkdir(parents=True, exist_ok=True)`: create missing components as
directories; an existing directory at the target is accepted, any non-directory
in the way raises. -/
def mkdirParentsOk : FsTree → FPath → Except OsError FsTree
  | .dir cs, [] => .ok (.dir cs)
  | .file _, [] => .error .fileExists
  | .targz _ _, [] => .error .fileExists
  | .dir cs, n :: p =>
    match getChild cs n with
    | some c =>
      match mkdirParentsOk c p with
      | .ok c2 => .ok (.dir (setChild cs n c2))
      | .error e => .error e
    | Option.none =>
      match mkdirParentsOk (.dir []) p with
      | .ok c2 => .ok (.dir (setChild cs n c2))
      | .error e => .error e
  | _, _ :: _ => .error (.notADirectory [])

/-- `Path.mkdir()` with default flags: the parent chain must exist as directories
and the target must be fresh, else `FileExistsError`. -/
def mkdirStrict : FsTree → FPath → Except OsError FsTree
  | .dir cs, [n] =>
    match getChild cs n with
    | some _ => .error .fileExists
    | Option.none => .ok (.dir (setChild cs n (.dir [])))
  | .dir cs, m :: p :: q =>
    match getChild cs m with
    | some c =>
      match mkdirStrict c (p :: q) with
      | .ok c2 => .ok (.dir (setChild cs m c2))
      | .error e => .error e
    | Option.none => .error (.fileNotFound [m])
  | .dir _, [] => .error .fileExists
  | _, _ => .error (.notADirectory [])

/-- The immutable payload layout record returned by `_create_layout`. -/
structure PayloadLayout where
  root : FPath
  external : FPath
  base : FPath
  pkgs : FPath

/-- Model of `Payload._create_layout(root)`: create `external` (idempotently, with
parents), then a fresh `external/base`, then a fresh `external/base/pkgs`. The
tree argument is the content of `root`. -/
def create_layout (t : FsTree) : Except OsError (FsTree × PayloadLayout) :=
  match mkdirParentsOk t ["external"] with
  | .error e => .error e
  | .ok t1 =>
    match mkdirStrict t1 ["external", "base"] with
    | .error e => .error e
    | .ok t2 =>
      match mkdirStrict t2 ["external", "base", "pkgs"] with
      | .error e => .error e
      | .ok t3 =>
        .ok (t3, { root := [], external := ["external"], base := ["external", "base"],
                   pkgs := ["external", "base", "pkgs"] })

/-! ## Claim-side formulations

The claims describe `make_app_name` as: lowercase, then join the maximal
alphanumeric segments with single hyphens (dropping empty segments). The
definitions below state that formulation directly; theorems later prove it equal
to the source's collapse-and-strip computation. -/

/-- Split a character list at every non-alphanumeric character, keeping empty
segments. The non-empty segments are exactly the maximal alphanumeric runs. -/
def splitNonAlnum : List Char → List (List Char)
  | [] => [[]]
  | c :: r =>
    if isLowerAlnum c then
      match splitNonAlnum r with
      | [] => [[c]]
      | g :: gs => (c :: g) :: gs
    else [] :: splitNonAlnum r

/-- The claim's description of `make_app_name`'s result: the maximal alphanumeric
runs of the lowercased input joined by single hyphens. -/
def appNameSpec (raw : String) : List Char :=
  joinWith ['-'] ((splitNonAlnum (raw.data.map Char.toLower)).filter (fun g => !g.isEmpty))

/-- The hyphen-join of the non-empty groups of `gs`, prefixed by a hyphen when
any group survives: the contribution of the remaining groups after the first. -/
def joinTail (gs : List (List Char)) : List Char :=
  if ((gs.filter (fun g => !g.isEmpty)).isEmpty) then []
  else '-' :: joinWith ['-'] (gs.filter (fun g => !g.isEmpty))

/-! ## General list lemmas -/

theorem mem_of_getLast?_eq {α : Type} {l : List α} {x : α} (h : l.getLast? = some x) : x ∈ l := by
  induction l with
  | nil => simp at h
  | cons a t ih =>
    rw [List.getLast?_cons] at h
    cases ht : t.getLast? with
    | none => rw [ht] at h; simp at h; simp [h]
    | some y => rw [ht] at h; simp at h; subst h; exact List.mem_cons_of_mem _ (ih ht)

theorem getLast?_cons_of_getLast? {α : Type} {l : List α} {a x : α}
    (h : l.getLast? = some x) : (a :: l).getLast? = some x := by
  cases l with
  | nil => simp at h
  | cons b t => rw [List.getLast?_cons_cons]; exact h

theorem head?_dropWhile_falsity {α : Type} {p : α → Bool} {l : List α} {c : α}
    (h : (l.dropWhile p).head? = some c) : p c = false := by
  induction l with
  | nil => simp [List.dropWhile] at h
  | cons a t ih =>
    rw [List.dropWhile_cons] at h
    by_cases hp : p a
    · rw [if_pos hp] at h; exact ih h
    · rw [if_neg hp] at h
      simp at h
      rw [← h]
      exact Bool.eq_false_iff.mpr hp

theorem getLast?_of_dropWhile_getLast? {α : Type} {p : α → Bool} {m : List α} {c : α}
    (h : (m.dropWhile p).getLast? = some c) : m.getLast? = some c := by
  induction m with
  | nil => simp [List.dropWhile] at h
  | cons a t ih =>
    rw [List.dropWhile_cons] at h
    by_cases hp : p a
    · rw [if_pos hp] at h
      exact getLast?_cons_of_getLast? (ih h)
    · rw [if_neg hp] at h; exact h

theorem mem_dropWhile_of_mem {α : Type} {p : α → Bool} {l : List α} {c : α}
    (hc : c ∈ l) (hp : p c = false) : c ∈ l.dropWhile p := by
  induction l with
  | nil => simp at hc
  | cons a t ih =>
    rw [List.dropWhile_cons]
    by_cases ha : p a
    · rw [if_pos ha]
      rcases List.mem_cons.mp hc with h | h
      · subst h; rw [hp] at ha; simp at ha
      · exact ih h
    · rw [if_neg ha]; exact hc

theorem mem_of_mem_dropWhile {α : Type} {p : α → Bool} {l : List α} {c : α}
    (h : c ∈ l.dropWhile p) : c ∈ l := (List.dropWhile_sublist p).subset h

/-! ## Lemmas about `stripChars` -/

theorem stripChars_getLast? {cut l : List Char} {c : Char}
    (h : (stripChars cut l).getLast? = some c) : cut.contains c = false := by
  unfold stripChars at h
  rw [List.getLast?_reverse] at h
  exact head?_dropWhile_falsity h

theorem stripChars_head? {cut l : List Char} {c : Char}
    (h : (stripChars cut l).head? = some c) : cut.contains c = false := by
  unfold stripChars at h
  rw [List.head?_reverse] at h
  have h2 := getLast?_of_dropWhile_getLast? h
  rw [List.getLast?_reverse] at h2
  exact head?_dropWhile_falsity h2

theorem mem_of_mem_stripChars {cut l : List Char} {c : Char}
    (h : c ∈ stripChars cut l) : c ∈ l := by
  unfold stripChars at h
  rw [List.mem_reverse] at h
  have h2 := mem_of_mem_dropWhile h
  rw [List.mem_reverse] at h2
  exact mem_of_mem_dropWhile h2

theorem mem_stripChars_of_mem {cut l : List Char} {c : Char}
    (hc : c ∈ l) (hp : cut.contains c = false) : c ∈ stripChars cut l := by
  unfold stripChars
  rw [List.mem_reverse]
  apply mem_dropWhile_of_mem _ hp
  rw [List.mem_reverse]
  exact mem_dropWhile_of_mem hc hp

/-! ## Lemmas about `collapseRuns` and `make_app_name` -/

theorem contains_hyphen_eq (c : Char) : (['-'].contains c) = (c == '-') := by
  cases h : c == '-' <;> simp [List.contains, List.elem, h]

theorem contains_hyphen_false_of_alnum {c : Char} (h : isLowerAlnum c = true) :
    (['-'].contains c) = false := by
  rw [contains_hyphen_eq]
  have : ¬ (c = '-') := by
    intro he; subst he; exact absurd h (by decide)
  exact beq_eq_false_iff_ne.mpr this

theorem mem_collapseRuns {c : Char} : ∀ {b : Bool} {l : List Char},
    c ∈ collapseRuns b l → isLowerAlnum c = true ∨ c = '-' := by
  intro b l
  induction l generalizing b with
  | nil => intro h; simp [collapseRuns] at h
  | cons a t ih =>
    intro h
    by_cases ha : isLowerAlnum a
    · rw [collapseRuns, if_pos ha] at h
      rcases List.mem_cons.mp h with h | h
      · subst h; exact Or.inl ha
      · exact ih h
    · rw [collapseRuns, if_neg ha] at h
      by_cases hb : b = true
      · subst hb; rw [if_pos rfl] at h; exact ih h
      · rw [Bool.not_eq_true] at hb; subst hb
        simp only [Bool.false_eq_true, if_false] at h
        rcases List.mem_cons.mp h with h | h
        · exact Or.inr h
        · exact ih h

theorem mem_collapseRuns_of_alnum {c : Char} (ha : isLowerAlnum c = true) :
    ∀ {b : Bool} {l : List Char}, c ∈ l → c ∈ collapseRuns b l := by
  intro b l
  induction l generalizing b with
  | nil => intro h; simp at h
  | cons a t ih =>
    intro h
    by_cases haa : isLowerAlnum a
    · rw [collapseRuns, if_pos haa]
      rcases List.mem_cons.mp h with h | h
      · subst h; exact List.mem_cons_self _ _
      · exact List.mem_cons_of_mem _ (ih h)
    · rw [collapseRuns, if_neg haa]
      have hct : c ∈ t := by
        rcases List.mem_cons.mp h with h | h
        · subst h; exact absurd ha (by simp [haa])
        · exact h
      by_cases hb : b = true
      · subst hb; rw [if_pos rfl]; exact ih hct
      · rw [Bool.not_eq_true] at hb; subst hb
        simp only [Bool.false_eq_true, if_false]
        exact List.mem_cons_of_mem _ (ih hct)

theorem collapseRuns_true_of_no_alnum : ∀ {l : List Char},
    (∀ c ∈ l, isLowerAlnum c = false) → collapseRuns true l = [] := by
  intro l
  induction l with
  | nil => intro _; rfl
  | cons a t ih =>
    intro h
    have ha := h a (List.mem_cons_self _ _)
    rw [collapseRuns, if_neg (by simp [ha]), if_pos rfl]
    exact ih (fun c hc => h c (List.mem_cons_of_mem _ hc))

theorem collapseRuns_false_of_no_alnum {l : List Char}
    (h : ∀ c ∈ l, isLowerAlnum c = false) :
    collapseRuns false l = [] ∨ collapseRuns false l = ['-'] := by
  cases l with
  | nil => exact Or.inl rfl
  | cons a t =>
    have ha := h a (List.mem_cons_self _ _)
    rw [collapseRuns, if_neg (by simp [ha])]
    simp only [Bool.false_eq_true, if_false]
    rw [collapseRuns_true_of_no_alnum (fun c hc => h c (List.mem_cons_of_mem _ hc))]
    exact Or.inr rfl

/-! ## Equivalence of `make_app_name` with its claim-side formulation -/

theorem isEmpty_iff_eq_nil {α : Type} {l : List α} : l.isEmpty = true ↔ l = [] := by
  cases l <;> simp

theorem splitNonAlnum_cons_ex (l : List Char) : ∃ g gs, splitNonAlnum l = g :: gs := by
  induction l with
  | nil => exact ⟨[], [], rfl⟩
  | cons a t ih =>
    by_cases ha : isLowerAlnum a
    · obtain ⟨g, gs, ih⟩ := ih
      rw [splitNonAlnum, if_pos ha, ih]
      exact ⟨a :: g, gs, rfl⟩
    · rw [splitNonAlnum, if_neg ha]
      exact ⟨[], splitNonAlnum t, rfl⟩

theorem joinWith_ne_nil {gs : List (List Char)} (h : ∀ g ∈ gs, g ≠ []) (hne : gs ≠ []) :
    joinWith ['-'] gs ≠ [] := by
  cases gs with
  | nil => exact absurd rfl hne
  | cons x xs =>
    cases xs with
    | nil => exact h x (List.mem_cons_self _ _)
    | cons y ys =>
      have hx := h x (List.mem_cons_self _ _)
      cases x with
      | nil => exact absurd rfl hx
      | cons c cs => simp [joinWith]

theorem rstrip_cons_of_false {α : Type} {p : α → Bool} {c : α} {xs : List α} (h : p c = false) :
    ((c :: xs).reverse.dropWhile p).reverse = c :: (xs.reverse.dropWhile p).reverse := by
  rw [List.reverse_cons, List.dropWhile_append]
  by_cases he : (xs.reverse.dropWhile p).isEmpty
  · rw [if_pos he]
    rw [isEmpty_iff_eq_nil.mp he]
    simp [List.dropWhile_cons, h]
  · rw [if_neg he]
    rw [List.reverse_append]
    simp

theorem rstrip_cons_of_true {α : Type} {p : α → Bool} {c : α} {xs : List α} (h : p c = true) :
    ((c :: xs).reverse.dropWhile p).reverse =
      if (xs.reverse.dropWhile p).isEmpty then []
      else c :: (xs.reverse.dropWhile p).reverse := by
  rw [List.reverse_cons, List.dropWhile_append]
  by_cases he : (xs.reverse.dropWhile p).isEmpty
  · rw [if_pos he, if_pos he]
    simp [List.dropWhile_cons, h]
  · rw [if_neg he, if_neg he]
    rw [List.reverse_append]
    simp

theorem collapseRuns_true_head {m : List Char} {c : Char}
    (h : (collapseRuns true m).head? = some c) : isLowerAlnum c = true := by
  induction m with
  | nil => simp [collapseRuns] at h
  | cons a t ih =>
    by_cases ha : isLowerAlnum a
    · rw [collapseRuns, if_pos ha] at h
      simp at h
      rw [← h]
      exact ha
    · rw [collapseRuns, if_neg ha, if_pos rfl] at h
      exact ih h

theorem not_hyphen_cond_of_alnum {c : Char} (h : isLowerAlnum c = true) :
    ¬ ((fun c => List.contains ['-'] c) c = true) := by
  intro hcon
  rw [show ((fun c => List.contains ['-'] c) c) = List.contains ['-'] c from rfl,
    contains_hyphen_false_of_alnum h] at hcon
  exact Bool.false_ne_true hcon

theorem dropWhile_collapseRuns_false (m : List Char) :
    (collapseRuns false m).dropWhile (fun c => List.contains ['-'] c) = collapseRuns true m := by
  cases m with
  | nil => rfl
  | cons a t =>
    by_cases ha : isLowerAlnum a
    · conv_lhs => rw [collapseRuns, if_pos ha]
      conv_rhs => rw [collapseRuns, if_pos ha]
      rw [List.dropWhile_cons, if_neg (not_hyphen_cond_of_alnum ha)]
    · conv_lhs => rw [collapseRuns, if_neg ha, if_neg (by decide : ¬ (false = true))]
      conv_rhs => rw [collapseRuns, if_neg ha, if_pos rfl]
      rw [List.dropWhile_cons,
        if_pos (by decide : ((fun c => List.contains ['-'] c) '-') = true)]
      cases hct : collapseRuns true t with
      | nil => rfl
      | cons d r =>
        have hd : isLowerAlnum d = true := by
          exact @collapseRuns_true_head t d (by rw [hct]; rfl)
        rw [List.dropWhile_cons, if_neg (not_hyphen_cond_of_alnum hd)]

theorem filter_mem_ne_nil {gs : List (List Char)} :
    ∀ g ∈ gs.filter (fun x => !x.isEmpty), g ≠ [] := by
  intro g hg
  have := (List.mem_filter.mp hg).2
  intro he
  subst he
  simp at this

theorem joinWith_cons_cons (sep x y : List Char) (ys : List (List Char)) :
    joinWith sep (x :: y :: ys) = x ++ sep ++ joinWith sep (y :: ys) := rfl

theorem joinWith_filter_cons_ne {g : List Char} (hg : g ≠ []) (gs : List (List Char)) :
    joinWith ['-'] ((g :: gs).filter (fun x => !x.isEmpty)) = g ++ joinTail gs := by
  have hcond : (fun (x : List Char) => !x.isEmpty) g = true := by
    cases g with
    | nil => exact absurd rfl hg
    | cons c cs => rfl
  rw [List.filter_cons, if_pos hcond]
  unfold joinTail
  cases hf : gs.filter (fun x => !x.isEmpty) with
  | nil => simp [joinWith]
  | cons f fs =>
    rw [joinWith_cons_cons, if_neg (by simp : ¬ (((f :: fs) : List (List Char)).isEmpty = true)),
      List.append_assoc]
    rfl

/-- The collapse-and-strip computation of the source equals the claim-side
split-and-join formulation, both from the "inside a run" state (first conjunct,
the leading hyphen already dropped) and from the initial state (second
conjunct). -/
theorem collapse_spec (m : List Char) :
    ((collapseRuns true m).reverse.dropWhile (fun c => List.contains ['-'] c)).reverse =
        joinWith ['-'] ((splitNonAlnum m).filter (fun g => !g.isEmpty))
  ∧ ((collapseRuns false m).reverse.dropWhile (fun c => List.contains ['-'] c)).reverse =
        (splitNonAlnum m).headD [] ++ joinTail (splitNonAlnum m).tail := by
  induction m with
  | nil => exact ⟨rfl, rfl⟩
  | cons a t ih =>
    obtain ⟨g, gs, hsp⟩ := splitNonAlnum_cons_ex t
    have ih2 : ((collapseRuns false t).reverse.dropWhile (fun c => List.contains ['-'] c)).reverse
        = g ++ joinTail gs := by
      rw [ih.2, hsp]
      rfl
    by_cases ha : isLowerAlnum a
    · have hpa : (fun c => List.contains ['-'] c) a = false := contains_hyphen_false_of_alnum ha
      have hsplit : splitNonAlnum (a :: t) = (a :: g) :: gs := by
        rw [splitNonAlnum, if_pos ha, hsp]
      have hcollapse : ∀ b : Bool, collapseRuns b (a :: t) = a :: collapseRuns false t := by
        intro b
        rw [collapseRuns, if_pos ha]
      constructor
      · rw [hcollapse true, rstrip_cons_of_false hpa, ih2, hsplit,
          joinWith_filter_cons_ne (by simp) gs, List.cons_append]
      · rw [hcollapse false, rstrip_cons_of_false hpa, ih2, hsplit]
        rfl
    · have hsplit : splitNonAlnum (a :: t) = [] :: splitNonAlnum t := by
        rw [splitNonAlnum, if_neg ha]
      have hfilter : (splitNonAlnum (a :: t)).filter (fun x => !x.isEmpty)
          = (splitNonAlnum t).filter (fun x => !x.isEmpty) := by
        rw [hsplit, List.filter_cons, if_neg (by simp)]
      constructor
      · rw [show collapseRuns true (a :: t) = collapseRuns true t from by
            rw [collapseRuns, if_neg ha, if_pos rfl],
          ih.1, hfilter]
      · rw [show collapseRuns false (a :: t) = '-' :: collapseRuns true t from by
            rw [collapseRuns, if_neg ha, if_neg (by decide : ¬ (false = true))],
          rstrip_cons_of_true (by decide : ((fun c => List.contains ['-'] c) '-') = true)]
        rw [hsplit]
        simp only [List.headD_cons, List.tail_cons, List.nil_append]
        unfold joinTail
        by_cases hF : (splitNonAlnum t).filter (fun x => !x.isEmpty) = []
        · have hj : joinWith ['-'] ((splitNonAlnum t).filter (fun g => !g.isEmpty)) = [] := by
            rw [hF]
            rfl
          have hr0 : ((collapseRuns true t).reverse.dropWhile
              (fun c => List.contains ['-'] c)).reverse = [] := by
            rw [ih.1, hj]
          have he : ((collapseRuns true t).reverse.dropWhile
              (fun c => List.contains ['-'] c)).isEmpty = true := by
            rw [isEmpty_iff_eq_nil, ← List.reverse_eq_nil_iff]
            exact hr0
          rw [if_pos he, if_pos (by rw [hF]; rfl)]
        · have hj : joinWith ['-'] ((splitNonAlnum t).filter (fun g => !g.isEmpty)) ≠ [] :=
            joinWith_ne_nil filter_mem_ne_nil hF
          have hr0 : ((collapseRuns true t).reverse.dropWhile
              (fun c => List.contains ['-'] c)).reverse ≠ [] := by
            rw [ih.1]
            exact hj
          have he : ¬ (((collapseRuns true t).reverse.dropWhile
              (fun c => List.contains ['-'] c)).isEmpty = true) := by
            rw [isEmpty_iff_eq_nil, ← List.reverse_eq_nil_iff]
            exact hr0
          rw [if_neg he, if_neg (by
            rw [isEmpty_iff_eq_nil]
            exact hF), ih.1]


/-! ## Characterizations of `make_app_name` and `get_bundle_app_name` -/

theorem ne_hyphen_of_contains_false {c : Char} (h : (['-'].contains c) = false) : c ≠ '-' := by
  intro he
  subst he
  exact absurd h (by decide)

theorem isAlnumAscii_of_lower {c : Char} (h : isLowerAlnum c = true) : isAlnumAscii c = true := by
  simp only [isLowerAlnum, Bool.or_eq_true, Bool.and_eq_true] at h
  simp only [isAlnumAscii, Bool.or_eq_true, Bool.and_eq_true]
  tauto

theorem isSegMid_of_collapse {c : Char} (h : isLowerAlnum c = true ∨ c = '-') :
    isSegMid c = true := by
  rcases h with h | h
  · simp only [isSegMid, Bool.or_eq_true]
    exact Or.inl (Or.inl (Or.inl (isAlnumAscii_of_lower h)))
  · subst h
    decide

theorem valid_segment_of_parts {l : List Char} (hne : l ≠ [])
    (hmem : ∀ c ∈ l, isLowerAlnum c = true ∨ c = '-')
    (hhead : ∀ c, l.head? = some c → c ≠ '-')
    (hlast : ∀ c, l.getLast? = some c → c ≠ '-') :
    isValidAppNameSegment (String.mk l) = true := by
  cases l with
  | nil => exact absurd rfl hne
  | cons c rest =>
    have hc : isAlnumAscii c = true := by
      have h1 := hhead c rfl
      rcases hmem c (List.mem_cons_self _ _) with h | h
      · exact isAlnumAscii_of_lower h
      · exact absurd h h1
    change (match rest.getLast? with
      | Option.none => isAlnumAscii c
      | some d => isAlnumAscii c && isAlnumAscii d && rest.dropLast.all isSegMid) = true
    cases hr : rest.getLast? with
    | none => exact hc
    | some d =>
      have hd : isAlnumAscii d = true := by
        have h1 := hlast d (getLast?_cons_of_getLast? hr)
        have h2 : d ∈ c :: rest := List.mem_cons_of_mem _ (mem_of_getLast?_eq hr)
        rcases hmem d h2 with h | h
        · exact isAlnumAscii_of_lower h
        · exact absurd h h1
      have hall : rest.dropLast.all isSegMid = true := by
        rw [List.all_eq_true]
        intro x hx
        have hx2 : x ∈ rest := (List.dropLast_sublist rest).subset hx
        exact isSegMid_of_collapse (hmem x (List.mem_cons_of_mem _ hx2))
      show (isAlnumAscii c && isAlnumAscii d && rest.dropLast.all isSegMid) = true
      rw [hc, hd, hall]
      rfl

theorem appNameRaw_parts {raw : String} :
    (∀ c ∈ appNameRaw raw, isLowerAlnum c = true ∨ c = '-')
    ∧ (∀ c, (appNameRaw raw).head? = some c → c ≠ '-')
    ∧ (∀ c, (appNameRaw raw).getLast? = some c → c ≠ '-') := by
  refine ⟨?_, ?_, ?_⟩
  · intro c hc
    exact mem_collapseRuns (mem_of_mem_stripChars hc)
  · intro c hc
    exact ne_hyphen_of_contains_false (stripChars_head? hc)
  · intro c hc
    exact ne_hyphen_of_contains_false (stripChars_getLast? hc)

theorem make_app_name_ok_valid {raw lbl a : String} (h : make_app_name raw lbl = .ok a) :
    isValidAppNameSegment a = true := by
  unfold make_app_name at h
  by_cases he : (appNameRaw raw).isEmpty = true
  · rw [if_pos he] at h
    exact absurd h (by simp)
  · rw [if_neg he] at h
    have ha : a = String.mk (appNameRaw raw) := by
      injection h with h2
      exact h2.symm
    subst ha
    have hne : appNameRaw raw ≠ [] := by
      intro hx
      rw [hx] at he
      exact he rfl
    exact valid_segment_of_parts hne appNameRaw_parts.1 appNameRaw_parts.2.1 appNameRaw_parts.2.2

theorem make_app_name_eq_spec {raw lbl : String}
    (h : ∃ c ∈ raw.data, isLowerAlnum c.toLower = true) :
    make_app_name raw lbl = .ok (String.mk (appNameSpec raw)) := by
  have key : appNameRaw raw = appNameSpec raw := by
    unfold appNameRaw stripChars
    rw [dropWhile_collapseRuns_false]
    exact (collapse_spec (raw.data.map Char.toLower)).1
  obtain ⟨c, hc, ha⟩ := h
  have hmem : c.toLower ∈ appNameRaw raw := by
    unfold appNameRaw
    apply mem_stripChars_of_mem
    · exact mem_collapseRuns_of_alnum ha (List.mem_map_of_mem _ hc)
    · exact contains_hyphen_false_of_alnum ha
  have hne : ¬ ((appNameRaw raw).isEmpty = true) := by
    intro hx
    rw [isEmpty_iff_eq_nil.mp hx] at hmem
    simp at hmem
  unfold make_app_name
  rw [if_neg hne, key]

theorem make_app_name_err_iff (raw lbl : String) :
    (make_app_name raw lbl =
        .error (.validationError (lbl ++ " contains no alphanumeric characters")))
      ↔ ∀ c ∈ raw.data, isLowerAlnum c.toLower = false := by
  constructor
  · intro h
    by_contra hx
    push_neg at hx
    obtain ⟨c, hc, hcc⟩ := hx
    have ha : isLowerAlnum c.toLower = true := by
      cases hb : isLowerAlnum c.toLower with
      | false => exact absurd hb hcc
      | true => rfl
    have := @make_app_name_eq_spec raw lbl ⟨c, hc, ha⟩
    rw [this] at h
    exact absurd h (by simp)
  · intro h
    have hnone : ∀ c ∈ raw.data.map Char.toLower, isLowerAlnum c = false := by
      intro c hc
      obtain ⟨c0, hc0, rfl⟩ := List.mem_map.mp hc
      exact h c0 hc0
    have happ : appNameRaw raw = [] := by
      unfold appNameRaw
      rcases collapseRuns_false_of_no_alnum hnone with h1 | h1 <;> rw [h1] <;> rfl
    unfold make_app_name
    rw [happ]
    rfl

theorem rsplitDot_eq_none_iff {l : List Char} : rsplitDot l = Option.none ↔ '.' ∉ l := by
  induction l with
  | nil => simp [rsplitDot]
  | cons c r ih =>
    rw [rsplitDot]
    cases hs : rsplitDot r with
    | some pr =>
      simp only []
      constructor
      · intro h
        exact absurd h (by simp)
      · intro h
        have : '.' ∉ r := fun hm => h (List.mem_cons_of_mem _ hm)
        rw [ih.mpr this] at hs
        exact absurd hs (by simp)
    | none =>
      simp only []
      by_cases hc : c == '.'
      · rw [if_pos hc]
        constructor
        · intro h
          exact absurd h (by simp)
        · intro h
          have : c = '.' := by
            have := hc
            simp at this
            exact this
          exact absurd (this ▸ List.mem_cons_self c r) h
      · rw [if_neg hc]
        constructor
        · intro _ hm
          rcases List.mem_cons.mp hm with h | h
          · rw [← h] at hc
            simp at hc
          · exact (ih.mp hs) h
        · intro _
          rfl

theorem rsplitDot_some_spec {l : List Char} {b a : List Char}
    (h : rsplitDot l = some (b, a)) : l = b ++ '.' :: a ∧ '.' ∉ a := by
  induction l generalizing b a with
  | nil => simp [rsplitDot] at h
  | cons c r ih =>
    rw [rsplitDot] at h
    cases hs : rsplitDot r with
    | some pr =>
      obtain ⟨b2, a2⟩ := pr
      rw [hs] at h
      simp only [] at h
      have hb : b = c :: b2 ∧ a = a2 := by
        injection h with h2
        injection h2 with h3 h4
        exact ⟨h3.symm, h4.symm⟩
      obtain ⟨rfl, rfl⟩ := hb
      obtain ⟨he, hna⟩ := ih hs
      exact ⟨by rw [List.cons_append, ← he], hna⟩
    | none =>
      rw [hs] at h
      simp only [] at h
      by_cases hc : c == '.'
      · rw [if_pos hc] at h
        have hceq : c = '.' := by simpa using hc
        have hb : b = [] ∧ a = r := by
          injection h with h2
          injection h2 with h3 h4
          exact ⟨h3.symm, h4.symm⟩
        obtain ⟨rfl, rfl⟩ := hb
        subst hceq
        exact ⟨rfl, rsplitDot_eq_none_iff.mp hs⟩
      · rw [if_neg hc] at h
        exact absurd h (by simp)

theorem rsplitDot_isSome_of_mem {l : List Char} (h : '.' ∈ l) : (rsplitDot l).isSome = true := by
  cases hs : rsplitDot l with
  | some pr => rfl
  | none => exact absurd h (rsplitDot_eq_none_iff.mp hs)


/-! ## Claim theorems: C9, C3, C4 -/

/-- C9: for every string `raw`, `make_app_name(raw, label)` returns `raw`
lowercased with every maximal run of non-alphanumeric characters replaced by a
single hyphen and leading/trailing hyphens stripped (stated through the
independent split-and-join formulation `appNameSpec`), and it fails with a
`ValidationError` citing the label exactly when that result is empty, i.e. when
`raw` contains no alphanumeric character. In particular `"My App!!2024"` yields
`"my-app-2024"` and `"???"` fails. -/
theorem C9_make_app_name (raw lbl : String) :
    ((∃ c ∈ raw.data, isLowerAlnum c.toLower = true) →
        make_app_name raw lbl = .ok (String.mk (appNameSpec raw)))
  ∧ (make_app_name raw lbl =
        .error (.validationError (lbl ++ " contains no alphanumeric characters"))
      ↔ ∀ c ∈ raw.data, isLowerAlnum c.toLower = false)
  ∧ make_app_name "My App!!2024" lbl = .ok "my-app-2024"
  ∧ make_app_name "???" lbl =
      .error (.validationError (lbl ++ " contains no alphanumeric characters")) :=
  ⟨fun h => make_app_name_eq_spec h, make_app_name_err_iff raw lbl, rfl, rfl⟩

/-- Witness for C9 at a concrete input with an alphanumeric character. -/
theorem C9_witness :
    make_app_name "My App!!2024" "x" = .ok (String.mk (appNameSpec "My App!!2024")) :=
  (C9_make_app_name "My App!!2024" "x").1 ⟨'M', by decide, by decide⟩

/-- Counterexample to C3 as stated: `get_bundle_app_name` succeeds on the
reverse-domain identifier `"com.example.MyApp"` returning app name `"MyApp"`,
which is not a lowercase hyphen-joined token. -/
theorem C3_counterexample :
    get_bundle_app_name "" (some "com.example.MyApp") "x" = .ok ("com.example", "MyApp")
      ∧ isLowerToken "MyApp" = false :=
  ⟨rfl, rfl⟩

/-- C3 (amended): whenever `get_bundle_app_name` succeeds, the returned app name
is non-empty, starts and ends with an ASCII alphanumeric character, and all its
characters are alphanumerics, dots, underscores or hyphens (the pattern the
source validates against); it need not be lowercase when it comes from a
user-supplied reverse-domain identifier. -/
theorem C3_app_name_valid (defaultRdi : String) (rdi : Option String) (name b a : String)
    (h : get_bundle_app_name defaultRdi rdi name = .ok (b, a)) :
    isValidAppNameSegment a = true := by
  cases rdi with
  | some r =>
    simp only [get_bundle_app_name] at h
    cases hs : rsplitDot r.data with
    | none =>
      rw [hs] at h
      exact absurd h (by simp)
    | some pr =>
      obtain ⟨bl, al⟩ := pr
      simp only [hs] at h
      by_cases hv : isValidAppNameSegment (String.mk al) = true
      · rw [if_pos hv] at h
        simp only [Except.ok.injEq, Prod.mk.injEq] at h
        rw [← h.2]
        exact hv
      · rw [if_neg hv] at h
        cases hm : make_app_name (String.mk al)
            ("Last component of reverse_domain_identifier '" ++ r ++ "'") with
        | ok a2 =>
          rw [hm] at h
          simp only [Except.ok.injEq, Prod.mk.injEq] at h
          rw [← h.2]
          exact make_app_name_ok_valid hm
        | error e =>
          rw [hm] at h
          exact absurd h (by simp)
  | none =>
    simp only [get_bundle_app_name] at h
    cases hm : make_app_name name ("Name '" ++ name ++ "'") with
    | ok a2 =>
      rw [hm] at h
      simp only [Except.ok.injEq, Prod.mk.injEq] at h
      rw [← h.2]
      exact make_app_name_ok_valid hm
    | error e =>
      rw [hm] at h
      exact absurd h (by simp)

/-- Witness for C3 (amended) at a concrete sanitized input. -/
theorem C3_witness : isValidAppNameSegment "my-app" = true :=
  C3_app_name_valid "" (some "com.example.my app!") "x" "com.example" "my-app" rfl

/-- C4: with a `reverse_domain_identifier` present, `get_bundle_app_name` fails
with a `ValidationError` when it has no dot; otherwise it splits at the last dot
into `(bundle, app_name)`, keeps `app_name` unchanged when it matches the
validating pattern and sanitizes it through `make_app_name` otherwise; with the
field absent it pairs the default bundle constant with `make_app_name(name)`. -/
theorem C4_get_bundle_app_name (defaultRdi : String) (rdi : Option String) (name : String) :
    (∀ r, rdi = some r → '.' ∉ r.data →
        get_bundle_app_name defaultRdi rdi name =
          .error (.validationError ("reverse_domain_identifier '" ++ r ++ "' contains no dots")))
  ∧ (∀ r, rdi = some r → '.' ∈ r.data → ∃ bl al,
        rsplitDot r.data = some (bl, al)
        ∧ r.data = bl ++ '.' :: al ∧ '.' ∉ al
        ∧ (isValidAppNameSegment (String.mk al) = true →
            get_bundle_app_name defaultRdi rdi name = .ok (String.mk bl, String.mk al))
        ∧ (isValidAppNameSegment (String.mk al) = false →
            get_bundle_app_name defaultRdi rdi name =
              (match make_app_name (String.mk al)
                  ("Last component of reverse_domain_identifier '" ++ r ++ "'") with
               | .ok a2 => .ok (String.mk bl, a2)
               | .error e => .error e)))
  ∧ (rdi = Option.none →
      get_bundle_app_name defaultRdi rdi name =
        (match make_app_name name ("Name '" ++ name ++ "'") with
         | .ok a => .ok (defaultRdi, a)
         | .error e => .error e)) := by
  refine ⟨?_, ?_, ?_⟩
  · intro r hr hdot
    subst hr
    simp only [get_bundle_app_name]
    rw [rsplitDot_eq_none_iff.mpr hdot]
  · intro r hr hdot
    subst hr
    cases hs : rsplitDot r.data with
    | none => exact absurd hdot (rsplitDot_eq_none_iff.mp hs)
    | some pr =>
      obtain ⟨bl, al⟩ := pr
      obtain ⟨heq, hna⟩ := rsplitDot_some_spec hs
      refine ⟨bl, al, rfl, heq, hna, ?_, ?_⟩
      · intro hv
        simp only [get_bundle_app_name, hs]
        rw [if_pos hv]
      · intro hv
        simp only [get_bundle_app_name, hs]
        rw [if_neg (by rw [hv]; exact Bool.false_ne_true)]
  · intro hr
    subst hr
    simp only [get_bundle_app_name]

/-- Witness for C4: the valid last segment `"MyApp"` is kept unchanged. -/
theorem C4_witness :
    get_bundle_app_name "x" (some "com.example.MyApp") "n" = .ok ("com.example", "MyApp") := by
  have h := (C4_get_bundle_app_name "x" (some "com.example.MyApp") "n").2.1
      "com.example.MyApp" rfl (by decide)
  obtain ⟨bl, al, hs, _, _, hpos, _⟩ := h
  have hComputed : rsplitDot "com.example.MyApp".data =
      some ("com.example".data, "MyApp".data) := rfl
  rw [hComputed] at hs
  injection hs with h2
  injection h2 with h3 h4
  subst h3
  subst h4
  exact hpos (by decide)


/-! ## Dictionary lookup lemmas -/

theorem bool_eq_false_of_not {b : Bool} (h : ¬ b = true) : b = false := by
  cases b
  · rfl
  · exact absurd rfl h

theorem dictGet_cons (p : String × PyVal) (r : Info) (k : String) :
    dictGet (p :: r) k = if p.1 == k then some p.2 else dictGet r k := by
  unfold dictGet
  rw [List.find?_cons]
  cases hpk : (p.1 == k) with
  | false => simp
  | true => simp

theorem dictGet_mem {l : Info} {k : String} {v : PyVal} (h : dictGet l k = some v) :
    (k, v) ∈ l := by
  unfold dictGet at h
  cases hf : l.find? (fun p => p.1 == k) with
  | none => rw [hf] at h; exact absurd h (by simp)
  | some p =>
    rw [hf] at h
    simp only [Option.map_some', Option.some.injEq] at h
    have hp := List.find?_some hf
    have hmem := List.mem_of_find?_eq_some hf
    have hk : p.1 = k := by simpa using hp
    have : p = (k, v) := Prod.ext hk h
    rw [← this]
    exact hmem

theorem dictGet_eq_some_of_mem {l : Info} {k : String} {v : PyVal}
    (hn : (l.map Prod.fst).Nodup) (hm : (k, v) ∈ l) : dictGet l k = some v := by
  induction l with
  | nil => simp at hm
  | cons p r ih =>
    rw [List.map_cons, List.nodup_cons] at hn
    rw [dictGet_cons]
    rcases List.mem_cons.mp hm with he | hr
    · rw [← he]
      simp
    · by_cases hpk : (p.1 == k) = true
      · exfalso
        have h1 : p.1 ∉ r.map Prod.fst := hn.1
        have h2 : k ∈ r.map Prod.fst := List.mem_map_of_mem Prod.fst hr
        have hk : p.1 = k := by simpa using hpk
        rw [hk] at h1
        exact h1 h2
      · rw [if_neg hpk]
        exact ih hn.2 hr

theorem dictGet_eq_none_iff {l : Info} {k : String} :
    dictGet l k = Option.none ↔ k ∉ l.map Prod.fst := by
  induction l with
  | nil => simp [dictGet]
  | cons p r ih =>
    rw [dictGet_cons]
    by_cases hpk : (p.1 == k) = true
    · rw [if_pos hpk]
      have hk : p.1 = k := by simpa using hpk
      constructor
      · intro h
        exact absurd h (by simp)
      · intro h
        exact absurd (by rw [← hk]; exact List.mem_cons_self _ _ :
          k ∈ (p :: r).map Prod.fst) h
    · rw [if_neg hpk]
      rw [ih]
      have hne : ¬ (k = p.1) := by
        intro he
        rw [he] at hpk
        exact hpk (by simp)
      simp [List.mem_cons, hne]

theorem dictGet_perm {i1 i2 : Info} (hp : i1.Perm i2) (hn : (i1.map Prod.fst).Nodup) :
    ∀ k, dictGet i1 k = dictGet i2 k := by
  intro k
  have hn2 : (i2.map Prod.fst).Nodup := (hp.map Prod.fst).nodup hn
  cases hd : dictGet i1 k with
  | some v =>
    exact (dictGet_eq_some_of_mem hn2 (hp.mem_iff.mp (dictGet_mem hd))).symm
  | none =>
    have h1 := dictGet_eq_none_iff.mp hd
    have h2 : k ∉ i2.map Prod.fst := fun hm => h1 ((hp.map Prod.fst).mem_iff.mpr hm)
    exact (dictGet_eq_none_iff.mpr h2).symm

/-- `create_install_options_list` reads `info` only through `dictGet`, so two
dictionaries with the same lookup function produce the same options. -/
theorem create_install_options_list_congr (fs : String → Bool) (i1 i2 : Info)
    (h : ∀ k, dictGet i1 k = dictGet i2 k) :
    create_install_options_list fs i1 = create_install_options_list fs i2 := by
  unfold create_install_options_list registerOpts pythonDistScan condaOpts cacheOpt
    shortcutOpts scriptOpts
  simp only [h]

/-! ## Shape lemmas for the install-options segments -/

theorem registerOpts_shape {info : Info} {a : List IOpt} (h : registerOpts info = .ok a) :
    (a = [] ∨ ∃ o, a = [o] ∧ o.name = "register_python")
    ∧ (a ≠ [] → (∃ v, pythonDistScan info = .ok (some v))
        ∧ ((dictGet info "register_python").getD (.bool true)).truthy = true) := by
  unfold registerOpts at h
  split at h
  · exact absurd h (by simp)
  · simp only [Except.ok.injEq] at h
    subst h
    exact ⟨Or.inl rfl, fun hne => absurd rfl hne⟩
  · rename_i pyver hscan
    split at h
    · rename_i hr
      split at h
      · exact absurd h (by simp)
      · rename_i nm hnm
        simp only [Except.ok.injEq] at h
        subst h
        exact ⟨Or.inr ⟨_, rfl, rfl⟩, fun _ => ⟨⟨pyver, hscan⟩, hr⟩⟩
    · rename_i hr
      simp only [Except.ok.injEq] at h
      subst h
      exact ⟨Or.inl rfl, fun hne => absurd rfl hne⟩

theorem condaOpts_shape (info : Info) :
    (condaOpts info = []
        ∧ ((dictGet info "initialize_conda").getD (.str "classic")).truthy = false)
    ∨ (∃ o, condaOpts info = [o] ∧ o.name = "initialize_conda"
        ∧ ((dictGet info "initialize_conda").getD (.str "classic")).truthy = true) := by
  unfold condaOpts
  by_cases hic : ((dictGet info "initialize_conda").getD (.str "classic")).truthy = true
  · rw [if_pos hic]
    exact Or.inr ⟨_, rfl, rfl, hic⟩
  · rw [if_neg hic]
    exact Or.inl ⟨rfl, bool_eq_false_of_not hic⟩

theorem shortcutOpts_shape (info : Info) :
    (shortcutOpts info = []
        ∧ (dictGet info "_enable_shortcuts").getD (.bool false) ≠ PyVal.bool true)
    ∨ (∃ o, shortcutOpts info = [o] ∧ o.name = "enable_shortcuts"
        ∧ (dictGet info "_enable_shortcuts").getD (.bool false) = PyVal.bool true) := by
  unfold shortcutOpts
  cases hv : (dictGet info "_enable_shortcuts").getD (.bool false) with
  | bool b =>
    cases b with
    | true => exact Or.inr ⟨_, rfl, rfl, rfl⟩
    | false =>
      refine Or.inl ⟨rfl, ?_⟩
      intro he
      exact absurd (PyVal.bool.inj he) (by decide)
  | str s => exact Or.inl ⟨rfl, fun he => PyVal.noConfusion he⟩
  | int n => exact Or.inl ⟨rfl, fun he => PyVal.noConfusion he⟩
  | list xs => exact Or.inl ⟨rfl, fun he => PyVal.noConfusion he⟩
  | none => exact Or.inl ⟨rfl, fun he => PyVal.noConfusion he⟩

theorem scriptOpts_shape {fs : String → Bool} {info : Info} {t : String} {e : List IOpt}
    (h : scriptOpts fs info t = .ok e) :
    (e = [] ∧ ((dictGet info (t ++ "_install_desc")).getD (.str "")).truthy = false)
    ∨ (∃ o, e = [o] ∧ o.name = t ++ "_install_script"
        ∧ ((dictGet info (t ++ "_install_desc")).getD (.str "")).truthy = true) := by
  simp only [scriptOpts] at h
  split at h
  · exact absurd h (by simp)
  · split at h
    · unfold scriptBatCheck at h
      split at h
      · unfold scriptStrCheck at h
        split at h
        · exact absurd h (by simp)
        · split at h
          · rename_i h4
            simp only [Except.ok.injEq] at h
            subst h
            exact Or.inr ⟨_, rfl, rfl, h4⟩
          · rename_i h4
            simp only [Except.ok.injEq] at h
            subst h
            exact Or.inl ⟨rfl, bool_eq_false_of_not h4⟩
      · exact absurd h (by simp)
    · split at h
      · rename_i h2 h4
        simp only [Except.ok.injEq] at h
        subst h
        exact Or.inr ⟨_, rfl, rfl, h4⟩
      · rename_i h2 h4
        simp only [Except.ok.injEq] at h
        subst h
        exact Or.inl ⟨rfl, bool_eq_false_of_not h4⟩

/-! ## Decomposition of `create_install_options_list` -/

theorem create_ok_decomp {fs : String → Bool} {info : Info} {opts : List IOpt}
    (h : create_install_options_list fs info = .ok opts) :
    ∃ a e f, registerOpts info = .ok a ∧ scriptOpts fs info "pre" = .ok e
      ∧ scriptOpts fs info "post" = .ok f
      ∧ opts = a ++ condaOpts info ++ [cacheOpt info] ++ shortcutOpts info ++ e ++ f := by
  unfold create_install_options_list at h
  split at h
  · exact absurd h (by simp)
  · rename_i a hra
    split at h
    · exact absurd h (by simp)
    · rename_i e hre
      split at h
      · exact absurd h (by simp)
      · rename_i f hrf
        simp only [Except.ok.injEq] at h
        exact ⟨a, e, f, hra, hre, hrf, h.symm⟩

theorem reg_mem_name {info : Info} {a : List IOpt} {x : String}
    (h : registerOpts info = .ok a) (hx : x ∈ a.map IOpt.name) :
    x = "register_python" ∧ (∃ v, pythonDistScan info = .ok (some v))
      ∧ ((dictGet info "register_python").getD (.bool true)).truthy = true := by
  obtain ⟨hshape, hcond⟩ := registerOpts_shape h
  rcases hshape with rfl | ⟨o, rfl, hname⟩
  · simp at hx
  · simp only [List.map_cons, List.map_nil, List.mem_singleton] at hx
    have hc := hcond (by simp)
    exact ⟨hx.trans hname, hc.1, hc.2⟩

theorem conda_mem_name {info : Info} {x : String}
    (hx : x ∈ (condaOpts info).map IOpt.name) :
    x = "initialize_conda"
      ∧ ((dictGet info "initialize_conda").getD (.str "classic")).truthy = true := by
  rcases condaOpts_shape info with ⟨he, _⟩ | ⟨o, he, hname, hc⟩
  · rw [he] at hx; simp at hx
  · rw [he] at hx
    simp only [List.map_cons, List.map_nil, List.mem_singleton] at hx
    exact ⟨hx.trans hname, hc⟩

theorem shortcut_mem_name {info : Info} {x : String}
    (hx : x ∈ (shortcutOpts info).map IOpt.name) :
    x = "enable_shortcuts"
      ∧ (dictGet info "_enable_shortcuts").getD (.bool false) = PyVal.bool true := by
  rcases shortcutOpts_shape info with ⟨he, _⟩ | ⟨o, he, hname, hc⟩
  · rw [he] at hx; simp at hx
  · rw [he] at hx
    simp only [List.map_cons, List.map_nil, List.mem_singleton] at hx
    exact ⟨hx.trans hname, hc⟩

theorem script_mem_name {fs : String → Bool} {info : Info} {t : String} {e : List IOpt}
    {x : String} (h : scriptOpts fs info t = .ok e) (hx : x ∈ e.map IOpt.name) :
    x = t ++ "_install_script"
      ∧ ((dictGet info (t ++ "_install_desc")).getD (.str "")).truthy = true := by
  rcases scriptOpts_shape h with ⟨rfl, _⟩ | ⟨o, rfl, hname, hc⟩
  · simp at hx
  · simp only [List.map_cons, List.map_nil, List.mem_singleton] at hx
    exact ⟨hx.trans hname, hc⟩

theorem opts_name_mem_cases {fs : String → Bool} {info : Info} {opts : List IOpt} {x : String}
    (h : create_install_options_list fs info = .ok opts)
    (hx : x ∈ opts.map IOpt.name) :
    (∃ a, registerOpts info = .ok a ∧ x ∈ a.map IOpt.name)
    ∨ x ∈ (condaOpts info).map IOpt.name
    ∨ x = "clear_package_cache"
    ∨ x ∈ (shortcutOpts info).map IOpt.name
    ∨ (∃ e, scriptOpts fs info "pre" = .ok e ∧ x ∈ e.map IOpt.name)
    ∨ (∃ f, scriptOpts fs info "post" = .ok f ∧ x ∈ f.map IOpt.name) := by
  obtain ⟨a, e, f, hra, hre, hrf, hopts⟩ := create_ok_decomp h
  subst hopts
  simp only [List.map_append, List.mem_append] at hx
  rcases hx with ((((hx | hx) | hx) | hx) | hx) | hx
  · exact Or.inl ⟨a, hra, hx⟩
  · exact Or.inr (Or.inl hx)
  · simp only [List.map_cons, List.map_nil, List.mem_singleton] at hx
    exact Or.inr (Or.inr (Or.inl hx))
  · exact Or.inr (Or.inr (Or.inr (Or.inl hx)))
  · exact Or.inr (Or.inr (Or.inr (Or.inr (Or.inl ⟨e, hre, hx⟩))))
  · exact Or.inr (Or.inr (Or.inr (Or.inr (Or.inr ⟨f, hrf, hx⟩))))


/-! ## Claim theorems: C6, C7, C10 -/

/-- C6: every options list produced by `create_install_options_list` is ordered by
the fixed priority sequence (Python registration, PATH initialization, cache
clearing, shortcuts, pre-install script, post-install script), each entry appears
only when its condition holds, the cache-clearing option is always present with
default equal to the negation of `keep_pkgs` (true when the key is absent), and
the result is unchanged under reordering of the keys of `info`. -/
theorem C6_install_options (fs : String → Bool) (info : Info) (opts : List IOpt)
    (h : create_install_options_list fs info = .ok opts) :
    ((opts.map IOpt.name).Sublist
        ["register_python", "initialize_conda", "clear_package_cache",
         "enable_shortcuts", "pre_install_script", "post_install_script"])
  ∧ (∃ o ∈ opts, o.name = "clear_package_cache"
        ∧ o.defaultVal = .bool (!((dictGet info "keep_pkgs").getD (.bool false)).truthy)
        ∧ (dictGet info "keep_pkgs" = Option.none → o.defaultVal = .bool true))
  ∧ ("register_python" ∈ opts.map IOpt.name →
        (∃ v, pythonDistScan info = .ok (some v))
          ∧ ((dictGet info "register_python").getD (.bool true)).truthy = true)
  ∧ ("initialize_conda" ∈ opts.map IOpt.name →
        ((dictGet info "initialize_conda").getD (.str "classic")).truthy = true)
  ∧ ("enable_shortcuts" ∈ opts.map IOpt.name →
        (dictGet info "_enable_shortcuts").getD (.bool false) = PyVal.bool true)
  ∧ (∀ t, (t = "pre" ∨ t = "post") →
        ((t ++ "_install_script") ∈ opts.map IOpt.name →
          ((dictGet info (t ++ "_install_desc")).getD (.str "")).truthy = true))
  ∧ (∀ info2 : Info, info.Perm info2 → (info.map Prod.fst).Nodup →
        create_install_options_list fs info2 = .ok opts) := by
  obtain ⟨a, e, f, hra, hre, hrf, hopts⟩ := create_ok_decomp h
  have hsub1 : (a.map IOpt.name).Sublist ["register_python"] := by
    rcases (registerOpts_shape hra).1 with rfl | ⟨o, rfl, hname⟩
    · exact List.nil_sublist _
    · simp only [List.map_cons, List.map_nil, hname]
      exact List.Sublist.refl _
  have hsub2 : ((condaOpts info).map IOpt.name).Sublist ["initialize_conda"] := by
    rcases condaOpts_shape info with ⟨he2, _⟩ | ⟨o, he2, hname, _⟩
    · rw [he2]; exact List.nil_sublist _
    · rw [he2]
      simp only [List.map_cons, List.map_nil, hname]
      exact List.Sublist.refl _
  have hsub3 : (([cacheOpt info]).map IOpt.name).Sublist ["clear_package_cache"] := by
    simp only [List.map_cons, List.map_nil]
    exact List.Sublist.refl _
  have hsub4 : ((shortcutOpts info).map IOpt.name).Sublist ["enable_shortcuts"] := by
    rcases shortcutOpts_shape info with ⟨he2, _⟩ | ⟨o, he2, hname, _⟩
    · rw [he2]; exact List.nil_sublist _
    · rw [he2]
      simp only [List.map_cons, List.map_nil, hname]
      exact List.Sublist.refl _
  have hsub5 : (e.map IOpt.name).Sublist ["pre_install_script"] := by
    rcases scriptOpts_shape hre with ⟨rfl, _⟩ | ⟨o, rfl, hname, _⟩
    · exact List.nil_sublist _
    · simp only [List.map_cons, List.map_nil, hname]
      exact List.Sublist.refl _
  have hsub6 : (f.map IOpt.name).Sublist ["post_install_script"] := by
    rcases scriptOpts_shape hrf with ⟨rfl, _⟩ | ⟨o, rfl, hname, _⟩
    · exact List.nil_sublist _
    · simp only [List.map_cons, List.map_nil, hname]
      exact List.Sublist.refl _
  refine ⟨?_, ?_, ?_, ?_, ?_, ?_, ?_⟩
  · subst hopts
    simp only [List.map_append]
    exact ((((hsub1.append hsub2).append hsub3).append hsub4).append hsub5).append hsub6
  · refine ⟨cacheOpt info, ?_, rfl, rfl, ?_⟩
    · subst hopts
      simp [List.mem_append]
    · intro hnone
      show (cacheOpt info).defaultVal = PyVal.bool true
      unfold cacheOpt
      rw [hnone]
      rfl
  · intro hmem
    rcases opts_name_mem_cases h hmem with hc | hc | hc | hc | hc | hc
    · obtain ⟨a2, hra2, hx⟩ := hc
      exact (reg_mem_name hra2 hx).2
    · exact absurd (conda_mem_name hc).1 (by decide)
    · exact absurd hc (by decide)
    · exact absurd (shortcut_mem_name hc).1 (by decide)
    · obtain ⟨e2, hre2, hx⟩ := hc
      exact absurd (script_mem_name hre2 hx).1 (by decide)
    · obtain ⟨f2, hrf2, hx⟩ := hc
      exact absurd (script_mem_name hrf2 hx).1 (by decide)
  · intro hmem
    rcases opts_name_mem_cases h hmem with hc | hc | hc | hc | hc | hc
    · obtain ⟨a2, hra2, hx⟩ := hc
      exact absurd (reg_mem_name hra2 hx).1 (by decide)
    · exact (conda_mem_name hc).2
    · exact absurd hc (by decide)
    · exact absurd (shortcut_mem_name hc).1 (by decide)
    · obtain ⟨e2, hre2, hx⟩ := hc
      exact absurd (script_mem_name hre2 hx).1 (by decide)
    · obtain ⟨f2, hrf2, hx⟩ := hc
      exact absurd (script_mem_name hrf2 hx).1 (by decide)
  · intro hmem
    rcases opts_name_mem_cases h hmem with hc | hc | hc | hc | hc | hc
    · obtain ⟨a2, hra2, hx⟩ := hc
      exact absurd (reg_mem_name hra2 hx).1 (by decide)
    · exact absurd (conda_mem_name hc).1 (by decide)
    · exact absurd hc (by decide)
    · exact (shortcut_mem_name hc).2
    · obtain ⟨e2, hre2, hx⟩ := hc
      exact absurd (script_mem_name hre2 hx).1 (by decide)
    · obtain ⟨f2, hrf2, hx⟩ := hc
      exact absurd (script_mem_name hrf2 hx).1 (by decide)
  · intro t ht hmem
    rcases opts_name_mem_cases h hmem with hc | hc | hc | hc | hc | hc
    · obtain ⟨a2, hra2, hx⟩ := hc
      rcases ht with rfl | rfl
      · exact absurd (reg_mem_name hra2 hx).1 (by decide)
      · exact absurd (reg_mem_name hra2 hx).1 (by decide)
    · rcases ht with rfl | rfl
      · exact absurd (conda_mem_name hc).1 (by decide)
      · exact absurd (conda_mem_name hc).1 (by decide)
    · rcases ht with rfl | rfl
      · exact absurd hc (by decide)
      · exact absurd hc (by decide)
    · rcases ht with rfl | rfl
      · exact absurd (shortcut_mem_name hc).1 (by decide)
      · exact absurd (shortcut_mem_name hc).1 (by decide)
    · obtain ⟨e2, hre2, hx⟩ := hc
      rcases ht with rfl | rfl
      · exact (script_mem_name hre2 hx).2
      · exact absurd (script_mem_name hre2 hx).1 (by decide)
    · obtain ⟨f2, hrf2, hx⟩ := hc
      rcases ht with rfl | rfl
      · exact absurd (script_mem_name hrf2 hx).1 (by decide)
      · exact (script_mem_name hrf2 hx).2
  · intro info2 hp hn
    rw [← create_install_options_list_congr fs info info2 (dictGet_perm hp hn)]
    exact h

/-- Witness for C6 at a concrete `info` whose PATH-initialization flag is falsy. -/
theorem C6_witness :
    create_install_options_list (fun _ => false) [("initialize_conda", PyVal.bool false)]
        = .ok [cacheOpt [("initialize_conda", PyVal.bool false)]]
      ∧ (([cacheOpt [("initialize_conda", PyVal.bool false)]].map IOpt.name).Sublist
          ["register_python", "initialize_conda", "clear_package_cache",
           "enable_shortcuts", "pre_install_script", "post_install_script"]) :=
  ⟨rfl, (C6_install_options (fun _ => false) [("initialize_conda", PyVal.bool false)]
      [cacheOpt [("initialize_conda", PyVal.bool false)]] rfl).1⟩

/-- C7: for each script type, a supplied description without a script fails with a
`ValidationError`; a supplied script that is not an existing `.bat` file fails with
a `ValidationError`; and when the function succeeds the script option appears in
the list exactly when a description is supplied. The register-python stage and,
for the post type, the pre-script stage are assumed not to fail first. -/
theorem C7_script_options (fs : String → Bool) (info : Info) (t : String)
    (ht : t = "pre" ∨ t = "post")
    (hreg : ∃ a, registerOpts info = .ok a)
    (hpre : t = "post" → ∃ e, scriptOpts fs info "pre" = .ok e) :
    (((dictGet info (t ++ "_install_desc")).getD (.str "")).truthy = true →
     ((dictGet info (t ++ "_install")).getD (.str "")).truthy = false →
        create_install_options_list fs info =
          .error (.validationError
            (t ++ "_install_desc was set, but " ++ t ++ "_install was not!")))
  ∧ (∀ s, dictGet info (t ++ "_install") = some (.str s) → (s == "") = false →
      is_bat_file fs s = false →
        create_install_options_list fs info =
          .error (.validationError
            ("Specified " ++ t ++ "-install script '" ++ s ++ "' must be an existing '.bat' file.")))
  ∧ (∀ opts, create_install_options_list fs info = .ok opts →
      ((t ++ "_install_script") ∈ opts.map IOpt.name ↔
        ((dictGet info (t ++ "_install_desc")).getD (.str "")).truthy = true)) := by
  obtain ⟨a, hra⟩ := hreg
  refine ⟨?_, ?_, ?_⟩
  · intro hD hS
    have herr : scriptOpts fs info t = .error (.validationError
        (t ++ "_install_desc was set, but " ++ t ++ "_install was not!")) := by
      unfold scriptOpts
      rw [if_pos (by rw [hD, hS]; rfl)]
    rcases ht with rfl | rfl
    · unfold create_install_options_list
      simp only [hra, herr]
    · obtain ⟨e, he⟩ := hpre rfl
      unfold create_install_options_list
      simp only [hra, he, herr]
  · intro s hsv hsne hbat
    have hS : (PyVal.str s).truthy = true := by
      simp [PyVal.truthy, hsne]
    have hgetD : (dictGet info (t ++ "_install")).getD (.str "") = PyVal.str s := by
      rw [hsv]
      rfl
    have herr : scriptOpts fs info t = .error (.validationError
        ("Specified " ++ t ++ "-install script '" ++ s ++ "' must be an existing '.bat' file.")) := by
      simp only [scriptOpts, hgetD]
      rw [if_neg (by rw [hS]; simp), if_pos hS]
      change scriptStrCheck _ _ _ _ = _
      unfold scriptStrCheck
      rw [if_pos (by rw [hbat]; rfl)]
    rcases ht with rfl | rfl
    · unfold create_install_options_list
      simp only [hra, herr]
    · obtain ⟨e, he⟩ := hpre rfl
      unfold create_install_options_list
      simp only [hra, he, herr]
  · intro opts h
    obtain ⟨a2, e, f, hra2, hre, hrf, hopts⟩ := create_ok_decomp h
    constructor
    · intro hmem
      rcases opts_name_mem_cases h hmem with hc | hc | hc | hc | hc | hc
      · obtain ⟨a3, hra3, hx⟩ := hc
        rcases ht with rfl | rfl
        · exact absurd (reg_mem_name hra3 hx).1 (by decide)
        · exact absurd (reg_mem_name hra3 hx).1 (by decide)
      · rcases ht with rfl | rfl
        · exact absurd (conda_mem_name hc).1 (by decide)
        · exact absurd (conda_mem_name hc).1 (by decide)
      · rcases ht with rfl | rfl
        · exact absurd hc (by decide)
        · exact absurd hc (by decide)
      · rcases ht with rfl | rfl
        · exact absurd (shortcut_mem_name hc).1 (by decide)
        · exact absurd (shortcut_mem_name hc).1 (by decide)
      · obtain ⟨e2, hre2, hx⟩ := hc
        rcases ht with rfl | rfl
        · exact (script_mem_name hre2 hx).2
        · exact absurd (script_mem_name hre2 hx).1 (by decide)
      · obtain ⟨f2, hrf2, hx⟩ := hc
        rcases ht with rfl | rfl
        · exact absurd (script_mem_name hrf2 hx).1 (by decide)
        · exact (script_mem_name hrf2 hx).2
    · intro hD
      subst hopts
      simp only [List.map_append, List.mem_append]
      rcases ht with rfl | rfl
      · rcases scriptOpts_shape hre with ⟨rfl, hfalse⟩ | ⟨o, rfl, hname, _⟩
        · rw [hD] at hfalse
          exact absurd hfalse (by decide)
        · exact Or.inl (Or.inr (by
            simp only [List.map_cons, List.map_nil, List.mem_singleton]
            exact hname.symm))
      · rcases scriptOpts_shape hrf with ⟨rfl, hfalse⟩ | ⟨o, rfl, hname, _⟩
        · rw [hD] at hfalse
          exact absurd hfalse (by decide)
        · exact Or.inr (by
            simp only [List.map_cons, List.map_nil, List.mem_singleton]
            exact hname.symm)

/-- Witness for C7: a pre-install description without a script path fails. -/
theorem C7_witness :
    create_install_options_list (fun _ => false) [("pre_install_desc", PyVal.str "d")]
      = .error (.validationError
          ("pre" ++ "_install_desc was set, but " ++ "pre" ++ "_install was not!")) :=
  (C7_script_options (fun _ => false) [("pre_install_desc", PyVal.str "d")] "pre"
      (Or.inl rfl) ⟨[], rfl⟩ (fun hpost => absurd hpost (by decide))).1 rfl rfl

/-- C10: the shortcuts option appears in the returned list exactly when the
`_enable_shortcuts` value is the boolean `True` itself; any other value,
including truthy non-booleans such as `1`, leaves it out. -/
theorem C10_enable_shortcuts (fs : String → Bool) (info : Info) (opts : List IOpt)
    (h : create_install_options_list fs info = .ok opts) :
    ("enable_shortcuts" ∈ opts.map IOpt.name ↔
      (dictGet info "_enable_shortcuts").getD (.bool false) = PyVal.bool true) := by
  constructor
  · intro hmem
    rcases opts_name_mem_cases h hmem with hc | hc | hc | hc | hc | hc
    · obtain ⟨a2, hra2, hx⟩ := hc
      exact absurd (reg_mem_name hra2 hx).1 (by decide)
    · exact absurd (conda_mem_name hc).1 (by decide)
    · exact absurd hc (by decide)
    · exact (shortcut_mem_name hc).2
    · obtain ⟨e2, hre2, hx⟩ := hc
      exact absurd (script_mem_name hre2 hx).1 (by decide)
    · obtain ⟨f2, hrf2, hx⟩ := hc
      exact absurd (script_mem_name hrf2 hx).1 (by decide)
  · intro hv
    obtain ⟨a, e, f, hra, hre, hrf, hopts⟩ := create_ok_decomp h
    have hso : "enable_shortcuts" ∈ (shortcutOpts info).map IOpt.name := by
      unfold shortcutOpts
      rw [hv]
      simp
    subst hopts
    simp only [List.map_append, List.mem_append]
    exact Or.inl (Or.inl (Or.inr hso))

/-- Witness for C10: with `_enable_shortcuts` set to the truthy integer `1`, the
returned list contains no shortcuts option. -/
theorem C10_witness :
    create_install_options_list (fun _ => false) [("_enable_shortcuts", PyVal.int 1)]
        = .ok (condaOpts [("_enable_shortcuts", PyVal.int 1)]
            ++ [cacheOpt [("_enable_shortcuts", PyVal.int 1)]])
    ∧ "enable_shortcuts" ∉ ((condaOpts [("_enable_shortcuts", PyVal.int 1)]
            ++ [cacheOpt [("_enable_shortcuts", PyVal.int 1)]]).map IOpt.name) := by
  refine ⟨rfl, ?_⟩
  intro hm
  have hv := (C10_enable_shortcuts (fun _ => false) [("_enable_shortcuts", PyVal.int 1)]
      (condaOpts [("_enable_shortcuts", PyVal.int 1)]
        ++ [cacheOpt [("_enable_shortcuts", PyVal.int 1)]]) rfl).mp hm
  exact PyVal.noConfusion hv


/-! ## Claim theorems: C1, C2 -/

theorem get_name_version_some {n v : String} (hn : n ≠ "") (hv : v ≠ "") :
    get_name_version (some n) (some v) = getNameVersionCore n v := by
  have hbn : ¬ ((n == "") = true) := fun hc => hn (by simpa using hc)
  have hbv : ¬ ((v == "") = true) := fun hc => hv (by simpa using hc)
  unfold get_name_version
  change (if (n == "") = true then _ else _) = _
  rw [if_neg hbn]
  change (if (v == "") = true then _ else _) = _
  rw [if_neg hbv]

/-- Counterexample to C1 as stated: for version `"1.0-rc1-2.0"` the extracted
version is `"1.2.0"` (the last regex match of the hyphen-to-dot text
`"1.0.rc1.2.0"` is `"1.2.0"`, starting at the digit after `rc`), not `"2.0"`. -/
theorem C1_counterexample :
    get_name_version (some "x") (some "1.0-rc1-2.0") = .ok ("x 1.0-rc", "1.2.0")
      ∧ "1.2.0" ≠ "2.0" :=
  ⟨rfl, by decide⟩

/-- C1 (amended): when the name and version are non-empty and the lowercased,
hyphen-to-dot version text contains at least one match of the canonical version
pattern, `get_name_version` returns as version the last such match, and as name
the original name joined with the original-casing text before and after that
match, each trimmed of spaces, dots, hyphens and underscores and omitted when
empty; for version `"1.0-rc1-2.0"` the extracted version is `"1.2.0"`, not
`"1.0"`. -/
theorem C1_last_match (n v : String) (hn : n ≠ "") (hv : v ≠ "")
    {start len : Nat}
    (hlast : (findAll (canonVersionChars v)).getLast? = some (start, len)) :
    (get_name_version (some n) (some v) =
      .ok (joinSpace (([n, beforeText v start, afterText v start len]).filter
            (fun s => !(s == ""))),
          String.mk (((canonVersionChars v).drop start).take len)))
  ∧ get_name_version (some "x") (some "1.0-rc1-2.0") = .ok ("x 1.0-rc", "1.2.0") := by
  constructor
  · rw [get_name_version_some hn hv]
    unfold getNameVersionCore
    rw [hlast]
  · rfl

/-- Witness for C1 (amended) at a concrete version with a single match. -/
theorem C1_witness :
    get_name_version (some "m") (some "2024.02-1") = .ok ("m", "2024.02.1") :=
  (C1_last_match "m" "2024.02-1" (by decide) (by decide) rfl).1

/-- C2: `get_name_version` fails, always with a `ValidationError`, exactly when
the name or the version field is absent or empty; when both are non-empty it
always succeeds, and when the version text contains no match of the canonical
pattern it returns `("<name> <version>", "0.0.1")`. -/
theorem C2_get_name_version (name? version? : Option String) :
    ((name? = Option.none ∨ name? = some "") →
        get_name_version name? version? = .error (.validationError "Name is empty"))
  ∧ (∀ n, name? = some n → n ≠ "" →
      (version? = Option.none ∨ version? = some "") →
        get_name_version name? version? = .error (.validationError "Version is empty"))
  ∧ (∀ n v, name? = some n → n ≠ "" → version? = some v → v ≠ "" →
      (∃ p, get_name_version name? version? = .ok p)
      ∧ (findAll (canonVersionChars v) = [] →
          get_name_version name? version? = .ok (n ++ " " ++ v, "0.0.1"))) := by
  refine ⟨?_, ?_, ?_⟩
  · rintro (rfl | rfl)
    · rfl
    · rfl
  · intro n hn hne hver
    subst hn
    have hbn : ¬ ((n == "") = true) := fun hc => hne (by simpa using hc)
    rcases hver with rfl | rfl
    · unfold get_name_version
      change (if (n == "") = true then _ else _) = _
      rw [if_neg hbn]
    · unfold get_name_version
      change (if (n == "") = true then _ else _) = _
      rw [if_neg hbn]
      rfl
  · intro n v hn hne hv hve
    subst hn
    subst hv
    rw [get_name_version_some hne hve]
    constructor
    · unfold getNameVersionCore
      cases hl : (findAll (canonVersionChars v)).getLast? with
      | none => exact ⟨_, rfl⟩
      | some sl => exact ⟨_, rfl⟩
    · intro hfa
      unfold getNameVersionCore
      rw [hfa]
      rfl

/-- Witness for C2 at a version with no parseable numeric core. -/
theorem C2_witness :
    get_name_version (some "n") (some "abc") = .ok ("n abc", "0.0.1") :=
  ((C2_get_name_version (some "n") (some "abc")).2.2 "n" "abc" rfl (by decide) rfl
    (by decide)).2 rfl


/-! ## Children-list lemmas for the filesystem model -/

theorem getChild_cons (e : String × FsTree) (r : List (String × FsTree)) (n : String) :
    getChild (e :: r) n = if (e.1 == n) = true then some e.2 else getChild r n := rfl

theorem setChild_cons (e : String × FsTree) (r : List (String × FsTree)) (n : String)
    (v : FsTree) :
    setChild (e :: r) n v = if (e.1 == n) = true then (n, v) :: r else e :: setChild r n v := rfl

theorem removeChild_cons (e : String × FsTree) (r : List (String × FsTree)) (n : String) :
    removeChild (e :: r) n = if (e.1 == n) = true then removeChild r n else e :: removeChild r n :=
  rfl

theorem getChild_setChild (cs : List (String × FsTree)) (n : String) (v : FsTree) :
    getChild (setChild cs n v) n = some v := by
  induction cs with
  | nil => simp [setChild, getChild]
  | cons e r ih =>
    rw [setChild_cons]
    by_cases he : (e.1 == n) = true
    · rw [if_pos he, getChild_cons, if_pos (by simp)]
    · rw [if_neg he, getChild_cons, if_neg he]
      exact ih

theorem getChild_setChild_ne (cs : List (String × FsTree)) {n m : String} (v : FsTree)
    (hne : m ≠ n) : getChild (setChild cs n v) m = getChild cs m := by
  have hnm : ¬ ((n == m) = true) := by simpa using fun h2 => hne h2.symm
  induction cs with
  | nil =>
    show getChild [(n, v)] m = getChild [] m
    rw [getChild_cons, if_neg hnm]
  | cons e r ih =>
    rw [setChild_cons]
    by_cases he : (e.1 == n) = true
    · have hk : e.1 = n := by simpa using he
      rw [if_pos he, getChild_cons, getChild_cons, if_neg hnm, if_neg (by rw [hk]; exact hnm)]
    · rw [if_neg he, getChild_cons, getChild_cons]
      by_cases hm : (e.1 == m) = true
      · rw [if_pos hm, if_pos hm]
      · rw [if_neg hm, if_neg hm]
        exact ih

theorem setChild_setChild (cs : List (String × FsTree)) (n : String) (v1 v2 : FsTree) :
    setChild (setChild cs n v1) n v2 = setChild cs n v2 := by
  induction cs with
  | nil => simp [setChild]
  | cons e r ih =>
    rw [setChild_cons]
    by_cases he : (e.1 == n) = true
    · rw [if_pos he, setChild_cons, if_pos (by simp), setChild_cons, if_pos he]
    · rw [if_neg he, setChild_cons, if_neg he, setChild_cons, if_neg he, ih]

theorem getChild_removeChild (cs : List (String × FsTree)) (n : String) :
    getChild (removeChild cs n) n = Option.none := by
  induction cs with
  | nil => rfl
  | cons e r ih =>
    rw [removeChild_cons]
    by_cases he : (e.1 == n) = true
    · rw [if_pos he]
      exact ih
    · rw [if_neg he, getChild_cons, if_neg he]
      exact ih

theorem getChild_removeChild_ne (cs : List (String × FsTree)) {n m : String}
    (hne : m ≠ n) : getChild (removeChild cs n) m = getChild cs m := by
  induction cs with
  | nil => rfl
  | cons e r ih =>
    rw [removeChild_cons]
    by_cases he : (e.1 == n) = true
    · have hk : e.1 = n := by simpa using he
      rw [if_pos he, getChild_cons,
        if_neg (by rw [hk]; simpa using fun h2 => hne h2.symm)]
      exact ih
    · rw [if_neg he, getChild_cons, getChild_cons]
      by_cases hm : (e.1 == m) = true
      · rw [if_pos hm, if_pos hm]
      · rw [if_neg hm, if_neg hm]
        exact ih

/-! ## Path lemmas for the filesystem model -/

theorem lookupTree_dir_cons (cs : List (String × FsTree)) (n : String) (p : FPath) :
    lookupTree (.dir cs) (n :: p) =
      match getChild cs n with
      | some c => lookupTree c p
      | Option.none => Option.none := rfl

theorem lookupTree_append (t : FsTree) (p q : FPath) :
    lookupTree t (p ++ q) =
      match lookupTree t p with
      | some u => lookupTree u q
      | Option.none => Option.none := by
  induction p generalizing t with
  | nil => cases t <;> rfl
  | cons n p' ih =>
    cases t with
    | file d => rfl
    | targz nm c => rfl
    | dir cs =>
      show lookupTree (.dir cs) (n :: (p' ++ q)) = _
      rw [lookupTree_dir_cons, lookupTree_dir_cons]
      cases hg : getChild cs n with
      | none => rfl
      | some c => exact ih c

theorem lookupTree_child_dir {t : FsTree} {a : String} {r : FPath} {x : FsTree}
    (h : lookupTree t (a :: r) = some x) : ∃ cs, t = .dir cs := by
  cases t with
  | file d => exact absurd h (by simp [lookupTree])
  | targz nm c => exact absurd h (by simp [lookupTree])
  | dir cs => exact ⟨cs, rfl⟩

theorem pathLe_iff_append {p q : FPath} : pathLe p q ↔ ∃ r, q = p ++ r := by
  constructor
  · intro h
    refine ⟨q.drop p.length, ?_⟩
    have h2 := (List.take_append_drop p.length q).symm
    rw [h] at h2
    exact h2
  · rintro ⟨r, rfl⟩
    unfold pathLe
    exact List.take_left p r

theorem lookup_ancestor_dir {t : FsTree} {p q : FPath} {x : FsTree}
    (hle : pathLe p q) (hq : lookupTree t q = some x) :
    p = q ∨ ∃ cs, lookupTree t p = some (.dir cs) := by
  obtain ⟨r, rfl⟩ := pathLe_iff_append.mp hle
  cases r with
  | nil => exact Or.inl (by simp)
  | cons a r' =>
    rw [lookupTree_append] at hq
    cases hl : lookupTree t p with
    | none => rw [hl] at hq; exact absurd hq (by simp)
    | some u =>
      rw [hl] at hq
      obtain ⟨cs, rfl⟩ := lookupTree_child_dir hq
      exact Or.inr ⟨cs, rfl⟩


/-! ## Layout lemmas and claim theorem C8 -/

theorem isSome_of_isDirAt {t : FsTree} {p : FPath} (h : isDirAt t p = true) :
    (lookupTree t p).isSome = true := by
  unfold isDirAt at h
  cases hl : lookupTree t p with
  | none => rw [hl] at h; simp at h
  | some u => rfl

theorem create_layout_err_of_base {cs : List (String × FsTree)}
    (h : (lookupTree (.dir cs) ["external", "base"]).isSome = true) :
    create_layout (.dir cs) = .error .fileExists := by
  rw [lookupTree_dir_cons] at h
  cases hg : getChild cs "external" with
  | none => rw [hg] at h; simp at h
  | some c =>
    rw [hg] at h
    cases c with
    | file d => simp [lookupTree] at h
    | targz nm c2 => simp [lookupTree] at h
    | dir cs2 =>
      rw [show (match some (FsTree.dir cs2) with
          | some c => lookupTree c ["base"]
          | Option.none => Option.none) = lookupTree (.dir cs2) ["base"] from rfl,
        lookupTree_dir_cons] at h
      cases hb : getChild cs2 "base" with
      | none => rw [hb] at h; simp at h
      | some x =>
        have h1 : mkdirParentsOk (.dir cs) ["external"] =
            .ok (.dir (setChild cs "external" (.dir cs2))) := by
          simp only [mkdirParentsOk, hg]
        have h2 : mkdirStrict (.dir (setChild cs "external" (.dir cs2)))
            ["external", "base"] = .error .fileExists := by
          simp only [mkdirStrict, getChild_setChild, hb]
        simp only [create_layout, h1, h2]

theorem create_layout_build (cs cs2 : List (String × FsTree))
    (hget : getChild cs "external" = some (.dir cs2))
    (hbase : getChild cs2 "base" = Option.none) :
    create_layout (.dir cs) = .ok (.dir (setChild cs "external"
        (.dir (setChild cs2 "base" (.dir [("pkgs", .dir [])])))),
      ⟨[], ["external"], ["external", "base"], ["external", "base", "pkgs"]⟩) := by
  have h1 : mkdirParentsOk (.dir cs) ["external"] =
      .ok (.dir (setChild cs "external" (.dir cs2))) := by
    simp only [mkdirParentsOk, hget]
  have h2 : mkdirStrict (.dir (setChild cs "external" (.dir cs2))) ["external", "base"] =
      .ok (.dir (setChild cs "external" (.dir (setChild cs2 "base" (.dir []))))) := by
    simp only [mkdirStrict, getChild_setChild, hbase, setChild_setChild]
  have e2 : mkdirStrict (FsTree.dir []) ["pkgs"] = .ok (.dir [("pkgs", .dir [])]) := rfl
  have h3 : mkdirStrict
      (.dir (setChild cs "external" (.dir (setChild cs2 "base" (.dir [])))))
      ["external", "base", "pkgs"] =
      .ok (.dir (setChild cs "external" (.dir (setChild cs2 "base"
        (.dir [("pkgs", .dir [])]))))) := by
    simp only [mkdirStrict, getChild_setChild, setChild_setChild, e2]
    rfl
  simp only [create_layout, h1, h2, h3]

theorem create_layout_build_absent (cs : List (String × FsTree))
    (hget : getChild cs "external" = Option.none) :
    create_layout (.dir cs) = .ok (.dir (setChild cs "external"
        (.dir [("base", .dir [("pkgs", .dir [])])])),
      ⟨[], ["external"], ["external", "base"], ["external", "base", "pkgs"]⟩) := by
  have h1 : mkdirParentsOk (.dir cs) ["external"] =
      .ok (.dir (setChild cs "external" (.dir []))) := by
    simp only [mkdirParentsOk, hget]
  have e1 : mkdirStrict (FsTree.dir []) ["base"] = .ok (.dir [("base", .dir [])]) := rfl
  have h2 : mkdirStrict (.dir (setChild cs "external" (.dir []))) ["external", "base"] =
      .ok (.dir (setChild cs "external" (.dir [("base", .dir [])]))) := by
    simp only [mkdirStrict, getChild_setChild, setChild_setChild, e1]
    rfl
  have e2 : mkdirStrict (FsTree.dir [("base", .dir [])]) ["base", "pkgs"] =
      .ok (.dir [("base", .dir [("pkgs", .dir [])])]) := rfl
  have h3 : mkdirStrict (.dir (setChild cs "external" (.dir [("base", .dir [])])))
      ["external", "base", "pkgs"] =
      .ok (.dir (setChild cs "external" (.dir [("base", .dir [("pkgs", .dir [])])]))) := by
    simp only [mkdirStrict, getChild_setChild, setChild_setChild, e2]
    rfl
  simp only [create_layout, h1, h2, h3]

/-- C8: `_create_layout` creates `root/external` (succeeding also when the
directory already exists), then a fresh `external/base`, then a fresh
`external/base/pkgs`; it fails with `FileExistsError` (the spec's
`AlreadyExistsError`) when `base` (or `pkgs`, which can only exist inside
`base`) already exists; hence a second run on the same root fails. -/
theorem C8_create_layout (t : FsTree) (hroot : isDirAt t [] = true) :
    ((lookupTree t ["external", "base"]).isSome = true →
        create_layout t = .error .fileExists)
  ∧ ((lookupTree t ["external", "base", "pkgs"]).isSome = true →
        create_layout t = .error .fileExists)
  ∧ (lookupTree t ["external", "base"] = Option.none →
      (lookupTree t ["external"] = Option.none ∨ isDirAt t ["external"] = true) →
      ∃ t2, create_layout t = .ok (t2,
            ⟨[], ["external"], ["external", "base"], ["external", "base", "pkgs"]⟩)
        ∧ isDirAt t2 ["external"] = true
        ∧ isDirAt t2 ["external", "base"] = true
        ∧ isDirAt t2 ["external", "base", "pkgs"] = true
        ∧ create_layout t2 = .error .fileExists) := by
  obtain ⟨cs, rfl⟩ : ∃ cs, t = .dir cs := by
    cases t with
    | dir cs => exact ⟨cs, rfl⟩
    | file d => simp [isDirAt, lookupTree] at hroot
    | targz nm c => simp [isDirAt, lookupTree] at hroot
  refine ⟨create_layout_err_of_base, ?_, ?_⟩
  · intro hp
    apply create_layout_err_of_base
    rw [show (["external", "base", "pkgs"] : FPath) = ["external", "base"] ++ ["pkgs"] from rfl,
      lookupTree_append] at hp
    cases hl : lookupTree (.dir cs) ["external", "base"] with
    | none => rw [hl] at hp; simp at hp
    | some u => rfl
  · intro hbase hext
    rcases hext with hnone | hdir
    · have hg : getChild cs "external" = Option.none := by
        rw [lookupTree_dir_cons] at hnone
        cases hg : getChild cs "external" with
        | none => rfl
        | some c =>
          rw [hg] at hnone
          exact absurd hnone (by cases c <;> simp [lookupTree])
      refine ⟨_, create_layout_build_absent cs hg, ?_, ?_, ?_, ?_⟩
      · simp [isDirAt, lookupTree, lookupTree_dir_cons, getChild_setChild]
      · simp [isDirAt, lookupTree, lookupTree_dir_cons, getChild_setChild, getChild]
      · simp [isDirAt, lookupTree, lookupTree_dir_cons, getChild_setChild, getChild]
      · apply create_layout_err_of_base
        apply isSome_of_isDirAt
        simp [isDirAt, lookupTree, lookupTree_dir_cons, getChild_setChild, getChild]
    · obtain ⟨cs2, hg⟩ : ∃ cs2, getChild cs "external" = some (.dir cs2) := by
        unfold isDirAt at hdir
        rw [lookupTree_dir_cons] at hdir
        cases hg : getChild cs "external" with
        | none => rw [hg] at hdir; simp at hdir
        | some c =>
          rw [hg] at hdir
          cases c with
          | dir cs2 => exact ⟨cs2, rfl⟩
          | file d => exact absurd hdir (by simp [lookupTree])
          | targz nm c2 => exact absurd hdir (by simp [lookupTree])
      have hb : getChild cs2 "base" = Option.none := by
        rw [lookupTree_dir_cons, hg] at hbase
        rw [show (match some (FsTree.dir cs2) with
            | some c => lookupTree c ["base"]
            | Option.none => Option.none) = lookupTree (.dir cs2) ["base"] from rfl,
          lookupTree_dir_cons] at hbase
        cases hb : getChild cs2 "base" with
        | none => rfl
        | some x =>
          rw [hb] at hbase
          exact absurd hbase (by cases x <;> simp [lookupTree])
      refine ⟨_, create_layout_build cs cs2 hg hb, ?_, ?_, ?_, ?_⟩
      · simp [isDirAt, lookupTree, lookupTree_dir_cons, getChild_setChild]
      · simp [isDirAt, lookupTree, lookupTree_dir_cons, getChild_setChild, getChild]
      · simp [isDirAt, lookupTree, lookupTree_dir_cons, getChild_setChild, getChild]
      · apply create_layout_err_of_base
        apply isSome_of_isDirAt
        simp [isDirAt, lookupTree, lookupTree_dir_cons, getChild_setChild, getChild]

/-- Witness for C8 at an empty root: the first run succeeds and creates the
layout, the second fails with `FileExistsError`. -/
theorem C8_witness :
    ∃ t2, create_layout (.dir []) = .ok (t2,
          ⟨[], ["external"], ["external", "base"], ["external", "base", "pkgs"]⟩)
      ∧ isDirAt t2 ["external"] = true
      ∧ isDirAt t2 ["external", "base"] = true
      ∧ isDirAt t2 ["external", "base", "pkgs"] = true
      ∧ create_layout t2 = .error .fileExists :=
  (C8_create_layout (.dir []) rfl).2.2 rfl (Or.inl rfl)


/-! ## Write and remove lemmas for the filesystem model -/

theorem lookupTree_nil (t : FsTree) : lookupTree t [] = some t := by
  cases t <;> rfl

theorem pathLe_nil (q : FPath) : pathLe [] q := rfl

theorem pathLe_cons {x : String} {a b : FPath} : pathLe (x :: a) (x :: b) ↔ pathLe a b := by
  unfold pathLe
  rw [List.length_cons, List.take_succ_cons]
  simp

theorem writeFileAt_lookup_eq {t t' : FsTree} {d : FPath} {n : String} {v : FsTree}
    (h : writeFileAt t d n v = some t') : lookupTree t' (d ++ [n]) = some v := by
  induction d generalizing t t' with
  | nil =>
    cases t with
    | file b => exact absurd h (by simp [writeFileAt])
    | targz nm c => exact absurd h (by simp [writeFileAt])
    | dir cs =>
      unfold writeFileAt at h
      split at h
      · exact absurd h (by simp)
      · simp only [Option.some.injEq] at h
        subst h
        simp [lookupTree_dir_cons, getChild_setChild, lookupTree_nil]
  | cons m d' ih =>
    cases t with
    | file b => exact absurd h (by simp [writeFileAt])
    | targz nm c => exact absurd h (by simp [writeFileAt])
    | dir cs =>
      unfold writeFileAt at h
      split at h
      · rename_i c hg
        split at h
        · rename_i c2 hw
          simp only [Option.some.injEq] at h
          subst h
          show lookupTree (.dir (setChild cs m c2)) (m :: (d' ++ [n])) = some v
          rw [lookupTree_dir_cons, getChild_setChild]
          exact ih hw
        · exact absurd h (by simp)
      · exact absurd h (by simp)

theorem writeFileAt_lookup_ne {t t' : FsTree} {d : FPath} {n : String} {v : FsTree}
    (h : writeFileAt t d n v = some t') :
    ∀ p : FPath, ¬ pathLe p (d ++ [n]) → ¬ pathLe (d ++ [n]) p →
      lookupTree t' p = lookupTree t p := by
  induction d generalizing t t' with
  | nil =>
    intro p hp1 hp2
    cases t with
    | file b => exact absurd h (by simp [writeFileAt])
    | targz nm c => exact absurd h (by simp [writeFileAt])
    | dir cs =>
      unfold writeFileAt at h
      split at h
      · exact absurd h (by simp)
      · simp only [Option.some.injEq] at h
        subst h
        cases p with
        | nil => exact absurd (pathLe_nil _) hp1
        | cons m p' =>
          have hmn : m ≠ n := by
            intro he
            subst he
            exact hp2 rfl
          rw [lookupTree_dir_cons, lookupTree_dir_cons, getChild_setChild_ne cs v hmn]
  | cons m d' ih =>
    intro p hp1 hp2
    cases t with
    | file b => exact absurd h (by simp [writeFileAt])
    | targz nm c => exact absurd h (by simp [writeFileAt])
    | dir cs =>
      unfold writeFileAt at h
      split at h
      · rename_i c hg
        split at h
        · rename_i c2 hw
          simp only [Option.some.injEq] at h
          subst h
          cases p with
          | nil => exact absurd (pathLe_nil _) hp1
          | cons a p' =>
            by_cases ham : a = m
            · subst ham
              rw [lookupTree_dir_cons, lookupTree_dir_cons, getChild_setChild, hg]
              have h1 : ¬ pathLe p' (d' ++ [n]) := fun hc => hp1 (pathLe_cons.mpr hc)
              have h2 : ¬ pathLe (d' ++ [n]) p' := fun hc => hp2 (pathLe_cons.mpr hc)
              exact ih hw p' h1 h2
            · rw [lookupTree_dir_cons, lookupTree_dir_cons,
                getChild_setChild_ne cs c2 ham]
        · exact absurd h (by simp)
      · exact absurd h (by simp)

theorem writeFileAt_succeeds {t : FsTree} {d : FPath} {ds : List (String × FsTree)}
    (hd : lookupTree t d = some (.dir ds)) {n : String}
    (hno : ¬ (isDirAt t (d ++ [n]) = true)) (v : FsTree) :
    ∃ t', writeFileAt t d n v = some t' := by
  induction d generalizing t with
  | nil =>
    rw [lookupTree_nil] at hd
    simp only [Option.some.injEq] at hd
    subst hd
    cases hg : getChild ds n with
    | none => exact ⟨.dir (setChild ds n v), by simp [writeFileAt, hg]⟩
    | some c =>
      cases c with
      | dir cs2 =>
        exact absurd (by simp [isDirAt, lookupTree_dir_cons, lookupTree, hg]) hno
      | file b => exact ⟨.dir (setChild ds n v), by simp [writeFileAt, hg]⟩
      | targz nm c2 => exact ⟨.dir (setChild ds n v), by simp [writeFileAt, hg]⟩
  | cons m d' ih =>
    obtain ⟨cs, rfl⟩ := lookupTree_child_dir hd
    rw [lookupTree_dir_cons] at hd
    cases hg : getChild cs m with
    | none => rw [hg] at hd; exact absurd hd (by simp)
    | some c =>
      rw [hg] at hd
      have hd' : lookupTree c d' = some (.dir ds) := hd
      have hno' : ¬ (isDirAt c (d' ++ [n]) = true) := by
        intro hc
        apply hno
        unfold isDirAt at hc ⊢
        rw [show ((m :: d') ++ [n] : FPath) = m :: (d' ++ [n]) from rfl,
          lookupTree_dir_cons, hg]
        exact hc
      obtain ⟨c2, hw⟩ := ih hd' hno'
      exact ⟨.dir (setChild cs m c2), by simp [writeFileAt, hg, hw]⟩

theorem removeDirAt_succeeds {t : FsTree} {p : FPath} {ds : List (String × FsTree)}
    (hp : lookupTree t p = some (.dir ds)) (hne : p ≠ []) :
    ∃ t', removeDirAt t p = some t' := by
  induction p generalizing t with
  | nil => exact absurd rfl hne
  | cons m rest ih =>
    obtain ⟨cs, rfl⟩ := lookupTree_child_dir hp
    rw [lookupTree_dir_cons] at hp
    cases hg : getChild cs m with
    | none => rw [hg] at hp; exact absurd hp (by simp)
    | some c =>
      rw [hg] at hp
      cases rest with
      | nil =>
        have hp' : lookupTree c [] = some (.dir ds) := hp
        rw [lookupTree_nil] at hp'
        simp only [Option.some.injEq] at hp'
        subst hp'
        exact ⟨.dir (removeChild cs m), by simp [removeDirAt, hg]⟩
      | cons a q =>
        have hp' : lookupTree c (a :: q) = some (.dir ds) := hp
        obtain ⟨c2, hr⟩ := ih hp' (by simp)
        exact ⟨.dir (setChild cs m c2), by simp [removeDirAt, hg, hr]⟩

theorem removeDirAt_lookup_none {t t' : FsTree} {p : FPath}
    (h : removeDirAt t p = some t') : lookupTree t' p = Option.none := by
  induction p generalizing t t' with
  | nil =>
    cases t <;> exact absurd h (by simp [removeDirAt])
  | cons m rest ih =>
    cases t with
    | file b => exact absurd h (by simp [removeDirAt])
    | targz nm c => exact absurd h (by simp [removeDirAt])
    | dir cs =>
      cases rest with
      | nil =>
        unfold removeDirAt at h
        split at h
        · simp only [Option.some.injEq] at h
          subst h
          simp [lookupTree_dir_cons, getChild_removeChild]
        · exact absurd h (by simp)
      | cons a q =>
        unfold removeDirAt at h
        split at h
        · rename_i c hg
          split at h
          · rename_i c2 hr
            simp only [Option.some.injEq] at h
            subst h
            rw [lookupTree_dir_cons, getChild_setChild]
            exact ih hr
          · exact absurd h (by simp)
        · exact absurd h (by simp)

theorem removeDirAt_lookup_ne {t t' : FsTree} {p : FPath}
    (h : removeDirAt t p = some t') :
    ∀ q : FPath, ¬ pathLe q p → ¬ pathLe p q → lookupTree t' q = lookupTree t q := by
  induction p generalizing t t' with
  | nil =>
    cases t <;> exact absurd h (by simp [removeDirAt])
  | cons m rest ih =>
    intro q hq1 hq2
    cases t with
    | file b => exact absurd h (by simp [removeDirAt])
    | targz nm c => exact absurd h (by simp [removeDirAt])
    | dir cs =>
      cases rest with
      | nil =>
        unfold removeDirAt at h
        split at h
        · rename_i cs2 hg
          simp only [Option.some.injEq] at h
          subst h
          cases q with
          | nil => exact absurd (pathLe_nil _) hq1
          | cons a q' =>
            have ham : a ≠ m := by
              intro he
              subst he
              exact hq2 rfl
            rw [lookupTree_dir_cons, lookupTree_dir_cons, getChild_removeChild_ne cs ham]
        · exact absurd h (by simp)
      | cons b0 q0 =>
        unfold removeDirAt at h
        split at h
        · rename_i c hg
          split at h
          · rename_i c2 hr
            simp only [Option.some.injEq] at h
            subst h
            cases q with
            | nil => exact absurd (pathLe_nil _) hq1
            | cons a q' =>
              by_cases ham : a = m
              · subst ham
                rw [lookupTree_dir_cons, lookupTree_dir_cons, getChild_setChild, hg]
                have h1 : ¬ pathLe q' (b0 :: q0) := fun hc => hq1 (pathLe_cons.mpr hc)
                have h2 : ¬ pathLe (b0 :: q0) q' := fun hc => hq2 (pathLe_cons.mpr hc)
                exact ih hr q' h1 h2
              · rw [lookupTree_dir_cons, lookupTree_dir_cons,
                  getChild_setChild_ne cs c2 ham]
          · exact absurd h (by simp)
        · exact absurd h (by simp)


/-! ## Claim theorem C5: archiving a payload directory -/

/-- C5: Archive round-trip with source deletion. When `src` and `dst` are both
existing directories, `src` is not a path prefix of `dst/<archive_name>`, and no
directory already sits at `dst/<archive_name>`, then `_convert_into_archive`
succeeds, places at `dst/<archive_name>` a tar.gz whose single top-level entry
is named after `src`'s own directory name and extracts to `src`'s full tree
unchanged, and `src` no longer exists afterwards. If `src` or `dst` is not an
existing directory the operation fails with `NotADirectoryError`. -/
theorem C5_archive :
    (∀ (t : FsTree) (src dst : FPath) (an : String) (srcCs : List (String × FsTree)),
      lookupTree t src = some (.dir srcCs) →
      isDirAt t dst = true →
      ¬ pathLe src (dst ++ [an]) →
      ¬ (isDirAt t (dst ++ [an]) = true) →
      ∃ t2, convert_into_archive t src dst an = .ok (t2, dst ++ [an])
        ∧ lookupTree t2 (dst ++ [an]) = some (.targz (src.getLastD "") (.dir srcCs))
        ∧ extractTarGz (.targz (src.getLastD "") (.dir srcCs))
            = some (src.getLastD "", .dir srcCs)
        ∧ lookupTree t2 src = Option.none)
  ∧ (∀ (t : FsTree) (src dst : FPath) (an : String),
      (¬ (isDirAt t src = true) →
        convert_into_archive t src dst an = .error (.notADirectory src))
      ∧ (isDirAt t src = true → ¬ (isDirAt t dst = true) →
        convert_into_archive t src dst an = .error (.notADirectory dst))) := by
  constructor
  · intro t src dst an srcCs hsrc hdst hdisj hno
    have hsrcne : src ≠ [] := by
      intro he
      subst he
      exact hdisj (pathLe_nil _)
    have hnds : ¬ pathLe (dst ++ [an]) src := by
      intro hle
      rcases lookup_ancestor_dir hle hsrc with heq | ⟨cs', hl⟩
      · apply hno
        unfold isDirAt
        rw [heq, hsrc]
      · apply hno
        unfold isDirAt
        rw [hl]
    obtain ⟨ds, hdstEq⟩ : ∃ ds, lookupTree t dst = some (.dir ds) := by
      unfold isDirAt at hdst
      cases hl : lookupTree t dst with
      | none => rw [hl] at hdst; simp at hdst
      | some u =>
        rw [hl] at hdst
        cases u with
        | dir ds => exact ⟨ds, rfl⟩
        | file d => simp at hdst
        | targz nm c => simp at hdst
    obtain ⟨t1, hw⟩ := writeFileAt_succeeds hdstEq hno
      (.targz (src.getLastD "") (.dir srcCs))
    have hmk : make_tar_gz t src dst an = .ok (t1, dst ++ [an]) := by
      simp only [make_tar_gz, hsrc, hdstEq, hw]
    have hap : lookupTree t1 (dst ++ [an])
        = some (.targz (src.getLastD "") (.dir srcCs)) :=
      writeFileAt_lookup_eq hw
    have hs1 : lookupTree t1 src = some (.dir srcCs) := by
      rw [writeFileAt_lookup_ne hw src hdisj hnds]
      exact hsrc
    obtain ⟨t2, hr⟩ := removeDirAt_succeeds hs1 hsrcne
    refine ⟨t2, ?_, ?_, rfl, ?_⟩
    · simp [convert_into_archive, hmk, hap, hr]
    · rw [removeDirAt_lookup_ne hr (dst ++ [an]) hnds hdisj]
      exact hap
    · exact removeDirAt_lookup_none hr
  · intro t src dst an
    constructor
    · intro hnsrc
      have hmk : make_tar_gz t src dst an = .error (.notADirectory src) := by
        cases hl : lookupTree t src with
        | none => simp only [make_tar_gz, hl]
        | some c =>
          cases c with
          | dir cs =>
            exact absurd (show isDirAt t src = true by unfold isDirAt; rw [hl]) hnsrc
          | file d => simp only [make_tar_gz, hl]
          | targz nm c2 => simp only [make_tar_gz, hl]
      simp only [convert_into_archive, hmk]
    · intro hsrc hndst
      obtain ⟨cs, hl⟩ : ∃ cs, lookupTree t src = some (.dir cs) := by
        unfold isDirAt at hsrc
        cases hl : lookupTree t src with
        | none => rw [hl] at hsrc; simp at hsrc
        | some u =>
          rw [hl] at hsrc
          cases u with
          | dir cs => exact ⟨cs, rfl⟩
          | file d => simp at hsrc
          | targz nm c => simp at hsrc
      have hmk : make_tar_gz t src dst an = .error (.notADirectory dst) := by
        cases hd : lookupTree t dst with
        | none => simp only [make_tar_gz, hl, hd]
        | some c =>
          cases c with
          | dir ds =>
            exact absurd (show isDirAt t dst = true by unfold isDirAt; rw [hd]) hndst
          | file d2 => simp only [make_tar_gz, hl, hd]
          | targz nm c2 => simp only [make_tar_gz, hl, hd]
      simp only [convert_into_archive, hmk]

/-- When `src` equals `dst`, the conversion reports success and returns the
archive path, yet `shutil.rmtree(src)` has deleted the freshly created archive
along with `src`: the returned path no longer exists, refuting the unconditional
round-trip reading. -/
theorem C5_counterexample :
    convert_into_archive (.dir [("a", .dir [])]) ["a"] ["a"] "payload.tar.gz"
        = .ok (.dir [], ["a", "payload.tar.gz"])
      ∧ lookupTree (.dir []) ["a", "payload.tar.gz"] = Option.none :=
  ⟨rfl, rfl⟩

theorem C5_witness :
    (∃ t2, convert_into_archive
          (.dir [("e", .dir [("b", .dir [("x", .file [1])])])])
          ["e", "b"] ["e"] "payload.tar.gz"
        = .ok (t2, ["e"] ++ ["payload.tar.gz"])
      ∧ lookupTree t2 (["e"] ++ ["payload.tar.gz"])
          = some (.targz ((["e", "b"] : FPath).getLastD "")
              (.dir [("x", .file [1])]))
      ∧ extractTarGz (.targz ((["e", "b"] : FPath).getLastD "")
            (.dir [("x", .file [1])]))
          = some ((["e", "b"] : FPath).getLastD "", .dir [("x", .file [1])])
      ∧ lookupTree t2 ["e", "b"] = Option.none)
    ∧ convert_into_archive (.file []) ["a"] [] "z" = .error (.notADirectory ["a"])
    ∧ convert_into_archive (.dir [("a", .dir [])]) ["a"] ["z"] "w"
        = .error (.notADirectory ["z"]) :=
  ⟨C5_archive.1 _ _ _ _ _ rfl rfl (by decide) (by decide),
   (C5_archive.2 (.file []) ["a"] [] "z").1 (by decide),
   (C5_archive.2 (.dir [("a", .dir [])]) ["a"] ["z"] "w").2 (by decide) (by decide)⟩

end Briefcase
